import Mathlib

/-! TUBCipher: a 27-bit substitution-permutation cipher.

A shallow embedding of `TUBCipher.c` (functions `XOR`, `keyedPerm`, `roundEnc`,
`roundDec`, `encrypt`, `decrypt`) and theorems about it.

Conventions of the embedding.

* A C `char` or `int` value is an `Int`; the character `'0'` is `48`, `'1'` is `49`
  and the string terminator is `0`.
* A `char` buffer is the list of its characters. `rd a i` is the read `a[i]`,
  `List.set` is the write `a[i] = c`. A local array `char result[27]` starts as 27
  characters of value 0 (its initial content is never read: all 27 slots are
  written before the array is used).
* Each C function returns a pointer to its local result buffer; the embedding returns
  the content of that buffer at the moment of the `return`.
* `XOR`, `keyedPerm`, `roundEnc` and `roundDec` are called by `encrypt` and `decrypt`
  with buffers of 27 and 18 characters. Called with a shorter list, the embedding reads
  the missing characters as 0.
* `encrypt` and `decrypt` read the buffers of the caller. A read beyond the characters
  the caller supplied has no defined result in C; the embedding reports it as a `Fault`.
* Memory outside the buffers is not represented. `strcpy` of a round result that holds no
  terminator reads past the end of its source and writes past the end of
  `newBitString[27]`; this has no defined result either and is a `Fault`, as is a
  `strcpy` that leaves a part of `newBitString` uninitialised.
* The `printf` loop of `encrypt` only prints the result and is not part of the value.
-/

namespace TUBCipher

/-- A C character (or `int`) value. -/
abbrev CChar := Int

/-- The array read `a[i]`; slots outside the list read as 0. -/
def rd : List CChar → Nat → CChar
  | [], _ => 0
  | c :: _, 0 => c
  | _ :: cs, n + 1 => rd cs n

/-- Conversion of an `int` to a (signed, 8-bit) `char` on assignment. -/
def toChar (x : Int) : CChar := (x + 128) % 256 - 128

/-- Function `XOR` (TUBCipher.c, lines 4-23): `result[i] = (leftBit ^ rightBit) + '0'`. -/
def XOR (bitString key : List CChar) : List CChar :=
  (List.range 27).foldl
    (fun result i =>
      let leftBit := rd bitString i - 48
      let rightBit := rd key i - 48
      result.set i (toChar (Int.xor leftBit rightBit + 48)))
    (List.replicate 27 0)

/-- Three consecutive writes `result[3 * i] = x; result[(3 * i) + 1] = y;
result[(3 * i) + 2] = z`, the shape of every branch of the group loops. -/
def put3 (result : List CChar) (i : Nat) (x y z : CChar) : List CChar :=
  ((result.set (3 * i) x).set ((3 * i) + 1) y).set ((3 * i) + 2) z

/-- One iteration of the loop of `keyedPerm` (TUBCipher.c, lines 40-65). -/
def keyedPermBody (bitString key : List CChar) (result : List CChar) (i : Nat) :
    List CChar :=
  let c0 := rd bitString (3 * i)
  let c1 := rd bitString ((3 * i) + 1)
  let c2 := rd bitString ((3 * i) + 2)
  let a0 := rd key (2 * i)
  let a1 := rd key ((2 * i) + 1)
  if a0 = 48 ∧ a1 = 48 then put3 result i c0 c1 c2
  else if a0 = 48 ∧ a1 = 49 then put3 result i c1 c0 c2
  else if a0 = 49 ∧ a1 = 48 then put3 result i c0 c2 c1
  else put3 result i c2 c1 c0

/-- Function `keyedPerm` (TUBCipher.c, lines 25-69). -/
def keyedPerm (bitString key : List CChar) : List CChar :=
  (List.range 9).foldl (keyedPermBody bitString key) (List.replicate 27 0)

/-- The fixed permutation of `roundEnc` (TUBCipher.c, lines 82-87):
`resultPerm[(3 * i) % 26] = xorBits[i]` for `i < 26`, then
`resultPerm[26] = xorBits[26]`. -/
def fixedPermEnc (xorBits : List CChar) : List CChar :=
  ((List.range 26).foldl
      (fun resultPerm i => resultPerm.set ((3 * i) % 26) (rd xorBits i))
      (List.replicate 27 0)).set 26 (rd xorBits 26)

/-- The fixed permutation of `roundDec` (TUBCipher.c, lines 245-250):
`currentResult[i] = resultPerm[(3 * i) % 26]` for `i < 26`, then
`currentResult[26] = resultPerm[26]`. -/
def fixedPermDec (resultPerm : List CChar) : List CChar :=
  ((List.range 26).foldl
      (fun currentResult i => currentResult.set i (rd resultPerm ((3 * i) % 26)))
      (List.replicate 27 0)).set 26 (rd resultPerm 26)

/-- The value `W` computed for group `i` by the substitution loops
(TUBCipher.c, lines 97-109 and 178-190): decimal digits 100, 10, 1 for the three
characters that equal `'1'`. -/
def groupW (src : List CChar) (i : Nat) : Int :=
  let W := 0
  let W := if rd src (3 * i) = 49 then W + 100 else W
  let W := if rd src ((3 * i) + 1) = 49 then W + 10 else W
  let W := if rd src ((3 * i) + 2) = 49 then W + 1 else W
  W

/-- One iteration of the substitution loop of `roundEnc` (TUBCipher.c, lines 96-159). -/
def substEncBody (currentResult : List CChar) (result : List CChar) (i : Nat) :
    List CChar :=
  let W := groupW currentResult i
  if W = 0 then put3 result i 48 48 48
  else if W = 1 then put3 result i 48 48 49
  else if W = 10 then put3 result i 48 49 49
  else if W = 11 then put3 result i 49 49 48
  else if W = 100 then put3 result i 49 49 49
  else if W = 101 then put3 result i 49 48 48
  else if W = 110 then put3 result i 49 48 49
  else put3 result i 48 49 48

/-- The fixed substitution of `roundEnc` (TUBCipher.c, lines 92-159). -/
def substEnc (currentResult : List CChar) : List CChar :=
  (List.range 9).foldl (substEncBody currentResult) (List.replicate 27 0)

/-- One iteration of the substitution loop of `roundDec` (TUBCipher.c, lines 177-240). -/
def substDecBody (bitString : List CChar) (resultSub : List CChar) (i : Nat) :
    List CChar :=
  let W := groupW bitString i
  if W = 0 then put3 resultSub i 48 48 48
  else if W = 1 then put3 resultSub i 48 48 49
  else if W = 10 then put3 resultSub i 49 49 49
  else if W = 11 then put3 resultSub i 48 49 48
  else if W = 100 then put3 resultSub i 49 48 49
  else if W = 101 then put3 resultSub i 49 49 48
  else if W = 110 then put3 resultSub i 48 49 49
  else put3 resultSub i 49 48 48

/-- The fixed substitution of `roundDec` (TUBCipher.c, lines 173-240). -/
def substDec (bitString : List CChar) : List CChar :=
  (List.range 9).foldl (substDecBody bitString) (List.replicate 27 0)

/-- Function `roundEnc` (TUBCipher.c, lines 71-163). -/
def roundEnc (bitString bigKey smallKey : List CChar) : List CChar :=
  let xorBits := XOR bitString bigKey
  let resultPerm := fixedPermEnc xorBits
  let currentResult := keyedPerm resultPerm smallKey
  substEnc currentResult

/-- Function `roundDec` (TUBCipher.c, lines 165-256). -/
def roundDec (bitString bigKey smallKey : List CChar) : List CChar :=
  let resultSub := substDec bitString
  let resultPerm := keyedPerm resultSub smallKey
  let currentResult := fixedPermDec resultPerm
  XOR currentResult bigKey

/-- What C leaves undefined in `encrypt` and `decrypt`, made explicit. -/
inductive Fault
  /-- `strncpy` read the block buffer beyond the characters supplied. -/
  | blockReadPastEnd
  /-- In round `round`, `key[index]` lies beyond the characters supplied. -/
  | keyReadPastEnd (round index : Nat)
  /-- In round `round`, `strcpy` stopped at a terminator inside the round result and
  left the rest of `newBitString` uninitialised. -/
  | indeterminate (round : Nat)
  /-- In round `round`, `strcpy` met no terminator among the 27 characters of the round
  result: it read past the end of its source and wrote past the end of `newBitString`. -/
  | strcpyPastEnd (round : Nat)
  deriving DecidableEq

/-- Library call `strncpy(bitString, src, n)`: copies characters of `src`, up to `n` of
them or up to a terminator, and fills the rest of the `n` slots with terminators. -/
def strncpy : List CChar → Nat → Except Fault (List CChar)
  | _, 0 => .ok []
  | [], _ + 1 => .error .blockReadPastEnd
  | c :: cs, n + 1 =>
    if c = 0 then .ok (List.replicate (n + 1) 0)
    else
      match strncpy cs n with
      | .ok r => .ok (c :: r)
      | .error e => .error e

/-- Library call `strcpy(newBitString, src)` (TUBCipher.c, lines 284 and 324), `src` the
27 characters of the buffer `roundEnc` or `roundDec` returned. The copy runs up to and
including the first terminator of `src`. With no terminator among the 27 characters it
runs past the end of `src` and past the end of `newBitString[27]`. With a first terminator
before index 26 the slots of `newBitString` after it stay uninitialised. Only with a first
terminator at index 26 are the 27 slots of `newBitString` the characters of `src`. -/
def strcpy (src : List CChar) (round : Nat) : Except Fault (List CChar) :=
  if (0 : CChar) ∈ src then
    if (0 : CChar) ∈ src.take 26 then .error (.indeterminate round) else .ok src
  else .error (.strcpyPastEnd round)

/-- The read `key[index]` of round `round`. -/
def readKey (key : List CChar) (round index : Nat) : Except Fault CChar :=
  if index < key.length then .ok (rd key index) else .error (.keyReadPastEnd round index)

/-- The sub-key loops (TUBCipher.c, lines 275-281 and 315-321):
`for (j = 0; j < n; j++) subKey[j] = key[base + j]`. -/
def subKey (key : List CChar) (round base n : Nat) : Except Fault (List CChar) :=
  (List.range n).foldlM
    (fun buf j => do
      let c ← readKey key round (base + j)
      pure (buf.set j c))
    (List.replicate n 0)

/-- The copy loop `for (i = 0; i < 27; i++) bitString[i] = newBitString[i]`. -/
def copyBack (bitString newBitString : List CChar) : List CChar :=
  (List.range 27).foldl (fun bitString i => bitString.set i (rd newBitString i)) bitString

/-- One iteration of the round loop of `encrypt` (TUBCipher.c, lines 269-289). The source
of `strcpy` is the buffer `roundEnc` returned, taken with the content it has at the
`return`. -/
def encryptBody (key : List CChar) (bitString : List CChar) (i : Nat) :
    Except Fault (List CChar) := do
  let bigKey ← subKey key i (45 * i) 27
  let smallKey ← subKey key i ((45 * i) + 27) 18
  let newBitString ← strcpy (roundEnc bitString bigKey smallKey) i
  pure (copyBack bitString newBitString)

/-- Function `encrypt` (TUBCipher.c, lines 258-296): rounds `i = 0, 1, ..., 55`. -/
def encrypt (plaintext key : List CChar) : Except Fault (List CChar) := do
  let bitString ← strncpy plaintext 27
  (List.range 56).foldlM (encryptBody key) bitString

/-- One iteration of the round loop of `decrypt` (TUBCipher.c, lines 309-329). The source
of `strcpy` is the buffer `roundDec` returned, taken with the content it has at the
`return`. -/
def decryptBody (key : List CChar) (bitString : List CChar) (i : Nat) :
    Except Fault (List CChar) := do
  let bigKey ← subKey key i (45 * i) 27
  let smallKey ← subKey key i ((45 * i) + 27) 18
  let newBitString ← strcpy (roundDec bitString bigKey smallKey) i
  pure (copyBack bitString newBitString)

/-- Function `decrypt` (TUBCipher.c, lines 298-331): rounds `i = 55, 54, ..., 0`. -/
def decrypt (ciphertext key : List CChar) : Except Fault (List CChar) := do
  let bitString ← strncpy ciphertext 27
  (List.range 56).reverse.foldlM (decryptBody key) bitString

/-! ## Well-formed blocks and keys -/

/-- Every character is `'0'` or `'1'`. -/
def IsBits (l : List CChar) : Prop := ∀ c ∈ l, c = 48 ∨ c = 49

instance (l : List CChar) : Decidable (IsBits l) := by
  unfold IsBits; infer_instance

/-- A block: 27 characters, each `'0'` or `'1'`. -/
def IsBlock (b : List CChar) : Prop := b.length = 27 ∧ IsBits b

instance (b : List CChar) : Decidable (IsBlock b) := by
  unfold IsBlock; infer_instance

/-! ## The characters each stage writes -/

/-- The character `XOR` writes where the block holds `l` and the key holds `r`. -/
def xorChar (l r : CChar) : CChar := toChar (Int.xor (l - 48) (r - 48) + 48)

/-- The three characters `keyedPerm` writes for a group with selector characters `a0 a1`
and input characters `c0 c1 c2`. -/
def kpChars (a0 a1 c0 c1 c2 : CChar) : CChar × CChar × CChar :=
  if a0 = 48 ∧ a1 = 48 then (c0, c1, c2)
  else if a0 = 48 ∧ a1 = 49 then (c1, c0, c2)
  else if a0 = 49 ∧ a1 = 48 then (c0, c2, c1)
  else (c2, c1, c0)

/-- The value `W` of three characters. -/
def wOf (c0 c1 c2 : CChar) : Int :=
  (if c0 = 49 then 100 else 0) + (if c1 = 49 then 10 else 0) + (if c2 = 49 then 1 else 0)

/-- The three characters the substitution of `roundEnc` writes for a group of value `W`. -/
def substEncChars (W : Int) : CChar × CChar × CChar :=
  if W = 0 then (48, 48, 48)
  else if W = 1 then (48, 48, 49)
  else if W = 10 then (48, 49, 49)
  else if W = 11 then (49, 49, 48)
  else if W = 100 then (49, 49, 49)
  else if W = 101 then (49, 48, 48)
  else if W = 110 then (49, 48, 49)
  else (48, 49, 48)

/-- The three characters the substitution of `roundDec` writes for a group of value `W`. -/
def substDecChars (W : Int) : CChar × CChar × CChar :=
  if W = 0 then (48, 48, 48)
  else if W = 1 then (48, 48, 49)
  else if W = 10 then (49, 49, 49)
  else if W = 11 then (48, 49, 48)
  else if W = 100 then (49, 48, 49)
  else if W = 101 then (49, 49, 48)
  else if W = 110 then (48, 49, 49)
  else (49, 48, 48)

/-! ## The round keys and the round iteration, in the words of the specification (§4.6) -/

/-- BigKey of round `i`: the key characters `[45 i, 45 i + 27)`. -/
def specBigKey (key : List CChar) (i : Nat) : List CChar := (key.drop (45 * i)).take 27

/-- SmallKey of round `i`: the key characters `[45 i + 27, 45 i + 45)`. -/
def specSmallKey (key : List CChar) (i : Nat) : List CChar := (key.drop (45 * i + 27)).take 18

/-- The block after encryption rounds `0, 1, ..., n - 1`, in ascending order. -/
def specEncryptRounds (key : List CChar) : Nat → List CChar → List CChar
  | 0, b => b
  | n + 1, b => roundEnc (specEncryptRounds key n b) (specBigKey key n) (specSmallKey key n)

/-- The block after decryption rounds `n - 1, n - 2, ..., 0`, in descending order. -/
def specDecryptRounds (key : List CChar) : Nat → List CChar → List CChar
  | 0, b => b
  | n + 1, b => specDecryptRounds key n (roundDec b (specBigKey key n) (specSmallKey key n))

/-! ## Bits, group values and the stages, in the words of the specification (§4.1-§4.4) -/

/-- The bit a character `'0'` or `'1'` stands for. -/
def bitOf (c : CChar) : Bool := decide (c = 49)

/-- The character of a bit. -/
def charOf (b : Bool) : CChar := if b then 49 else 48

/-- Spec §4.2, forward: the position the bit of position `i` moves to. -/
def specPermTarget (i : Nat) : Nat := if i < 26 then (3 * i) % 26 else i

/-- The position whose bit moves to position `j`, found by search. -/
def specPermSource (j : Nat) : Nat :=
  ((List.range 27).find? (fun i => decide (specPermTarget i = j))).getD j

/-- Spec §4.2, forward: position `specPermTarget i` receives the bit of position `i`. -/
def specFixedPermForward (x : List CChar) : List CChar :=
  (List.range 27).map (fun j => rd x (specPermSource j))

/-- Spec §4.2, inverse: position `i` receives the bit of position `specPermTarget i`. -/
def specFixedPermInverse (x : List CChar) : List CChar :=
  (List.range 27).map (fun i => rd x (specPermTarget i))

/-- Spec §4.4: the integer 0..7 of three bit characters, the first bit most significant. -/
def specValue (c0 c1 c2 : CChar) : Nat :=
  4 * (c0 - 48).toNat + 2 * (c1 - 48).toNat + (c2 - 48).toNat

/-- The three bit characters of an integer 0..7, the most significant bit first. -/
def specGroup (v : Nat) : CChar × CChar × CChar :=
  (charOf (decide (v / 4 % 2 = 1)), charOf (decide (v / 2 % 2 = 1)), charOf (decide (v % 2 = 1)))

/-- Spec §4.4: the forward substitution table. -/
def specForwardTable : List Nat := [0, 1, 3, 6, 7, 4, 5, 2]

/-- Spec §4.4: the inverse substitution table. -/
def specInverseTable : List Nat := [0, 1, 7, 2, 5, 6, 3, 4]

/-- Component `j` of a group. -/
def pick (t : CChar × CChar × CChar) (j : Nat) : CChar :=
  if j = 0 then t.1 else if j = 1 then t.2.1 else t.2.2

/-- Spec §4.4: a table applied to each of the nine groups of a block. -/
def specSubst (table : List Nat) (x : List CChar) : List CChar :=
  (List.range 27).map (fun i =>
    pick (specGroup (table.getD
      (specValue (rd x (3 * (i / 3))) (rd x (3 * (i / 3) + 1)) (rd x (3 * (i / 3) + 2))) 0))
      (i % 3))

/-- The block whose first group holds the integer `v` and whose other groups hold 0. -/
def groupBlock (v : Nat) : List CChar :=
  (specGroup v).1 :: (specGroup v).2.1 :: (specGroup v).2.2 :: List.replicate 24 48

/-- The integer the first group of a block holds. -/
def firstValue (x : List CChar) : Nat := specValue (rd x 0) (rd x 1) (rd x 2)

/-- The map on the integers 0..7 that the substitution loop of `roundEnc` computes. -/
def forwardValue (v : Nat) : Nat := firstValue (substEnc (groupBlock v))

/-- The map on the integers 0..7 that the substitution loop of `roundDec` computes. -/
def inverseValue (v : Nat) : Nat := firstValue (substDec (groupBlock v))

/-! ## Concrete inputs -/

/-- A block that holds the character `'2'`. -/
def blockWithTwo : List CChar := 50 :: List.replicate 26 48

/-- The block `0101...0`. -/
def alternatingBlock : List CChar :=
  [48, 49, 48, 49, 48, 49, 48, 49, 48, 49, 48, 49, 48, 49, 48, 49, 48, 49, 48, 49, 48, 49, 48,
    49, 48, 49, 48]

/-- A BigKey that holds the character `'2'`. -/
def bigKeyWithTwo : List CChar := 50 :: List.replicate 26 48

/-- The block with `'1'` at position `p` and `'0'` elsewhere. -/
def unitBlock (p : Nat) : List CChar := (List.range 27).map (fun i => if i = p then 49 else 48)

/-! ## Reading and writing buffers -/

theorem rd_eq_getElem? (l : List CChar) (i : Nat) : rd l i = l[i]?.getD 0 := by
  induction l generalizing i with
  | nil => cases i <;> rfl
  | cons c cs ih =>
    cases i with
    | zero => simp [rd]
    | succ n => simpa [rd] using ih n

theorem rd_eq_getElem {l : List CChar} {i : Nat} (h : i < l.length) : rd l i = l[i] := by
  rw [rd_eq_getElem?, List.getElem?_eq_getElem h]; rfl

theorem rd_mem {l : List CChar} {i : Nat} (h : i < l.length) : rd l i ∈ l := by
  rw [rd_eq_getElem h]; exact List.getElem_mem h

theorem rd_set (l : List CChar) (i j : Nat) (v : CChar) :
    rd (l.set i v) j = if i = j ∧ j < l.length then v else rd l j := by
  simp only [rd_eq_getElem?, List.getElem?_set]
  by_cases hij : i = j
  · subst hij
    by_cases hl : i < l.length
    · simp [hl]
    · simp [hl, List.getElem?_eq_none (Nat.le_of_not_lt hl)]
  · simp [hij]

theorem rd_take {l : List CChar} {n i : Nat} (h : i < n) : rd (l.take n) i = rd l i := by
  simp only [rd_eq_getElem?, List.getElem?_take_of_lt h]

theorem rd_drop (l : List CChar) (n i : Nat) : rd (l.drop n) i = rd l (n + i) := by
  simp only [rd_eq_getElem?, List.getElem?_drop]

/-- Two buffers of the same length with the same character at every index are equal. -/
theorem ext_rd {x y : List CChar} {n : Nat} (hx : x.length = n) (hy : y.length = n)
    (h : ∀ i, i < n → rd x i = rd y i) : x = y := by
  apply List.ext_getElem (hx.trans hy.symm)
  intro i h1 h2
  have := h i (hx ▸ h1)
  rwa [rd_eq_getElem h1, rd_eq_getElem h2] at this

/-- Buffers of 27 characters are equal when they agree on each of the nine groups. -/
theorem ext_groups {x y : List CChar} (hx : x.length = 27) (hy : y.length = 27)
    (h : ∀ g, g < 9 → rd x (3 * g) = rd y (3 * g) ∧ rd x (3 * g + 1) = rd y (3 * g + 1) ∧
      rd x (3 * g + 2) = rd y (3 * g + 2)) : x = y := by
  apply ext_rd hx hy
  intro i hi
  obtain ⟨h0, h1, h2⟩ := h (i / 3) (by omega)
  have hmod : i % 3 = 0 ∨ i % 3 = 1 ∨ i % 3 = 2 := by omega
  rcases hmod with hm | hm | hm
  · have : 3 * (i / 3) = i := by omega
    rwa [this] at h0
  · have : 3 * (i / 3) + 1 = i := by omega
    rwa [this] at h1
  · have : 3 * (i / 3) + 2 = i := by omega
    rwa [this] at h2

/-! ## Loops that write one slot per iteration -/

theorem length_scatter (p : Nat → Nat) (f : Nat → CChar) (init : List CChar) (n : Nat) :
    ((List.range n).foldl (fun r i => r.set (p i) (f i)) init).length = init.length := by
  induction n with
  | zero => rfl
  | succ n ih => simp [List.range_succ, ih]

/-- When the written indices are pairwise distinct, slot `p i` holds what iteration `i`
wrote. -/
theorem rd_scatter (p : Nat → Nat) (f : Nat → CChar) (init : List CChar) (n : Nat)
    (hinj : ∀ a b, a < n → b < n → p a = p b → a = b) (i : Nat) (hi : i < n)
    (hp : p i < init.length) :
    rd ((List.range n).foldl (fun r i => r.set (p i) (f i)) init) (p i) = f i := by
  induction n with
  | zero => omega
  | succ n ih =>
    simp only [List.range_succ, List.foldl_append, List.foldl_cons, List.foldl_nil, rd_set,
      length_scatter]
    by_cases hin : i = n
    · subst hin
      simp [hp]
    · have hlt : i < n := by omega
      have hne : ¬ (p n = p i ∧ p i < init.length) := by
        intro hc
        exact hin (hinj i n (by omega) (by omega) hc.1.symm)
      rw [if_neg hne]
      exact ih (fun a b ha hb => hinj a b (by omega) (by omega)) hlt

/-- A loop `for (i = 0; i < n; i++) r[i] = f i` over a buffer of at least `n` slots. -/
theorem rd_gather (f : Nat → CChar) (init : List CChar) (n : Nat) (hn : n ≤ init.length)
    (i : Nat) (hi : i < n) :
    rd ((List.range n).foldl (fun r i => r.set i (f i)) init) i = f i :=
  rd_scatter (fun i => i) f init n (fun _ _ _ _ h => h) i hi (Nat.lt_of_lt_of_le hi hn)

/-! ## Loops that write one group of three slots per iteration -/

theorem length_put3 (r : List CChar) (g : Nat) (x y z : CChar) :
    (put3 r g x y z).length = r.length := by
  simp [put3]

theorem rd_put3_other (r : List CChar) (g j : Nat) (x y z : CChar)
    (h : j < 3 * g ∨ 3 * g + 2 < j) : rd (put3 r g x y z) j = rd r j := by
  simp only [put3, rd_set, List.length_set]
  rw [if_neg (by omega), if_neg (by omega), if_neg (by omega)]

theorem rd_put3 (r : List CChar) (g : Nat) (x y z : CChar) (h : 3 * g + 2 < r.length) :
    rd (put3 r g x y z) (3 * g) = x ∧ rd (put3 r g x y z) (3 * g + 1) = y ∧
      rd (put3 r g x y z) (3 * g + 2) = z := by
  simp only [put3, rd_set, List.length_set]
  refine ⟨?_, ?_, ?_⟩
  · rw [if_neg (by omega), if_neg (by omega), if_pos ⟨trivial, by omega⟩]
  · rw [if_neg (by omega), if_pos ⟨trivial, by omega⟩]
  · rw [if_pos ⟨trivial, by omega⟩]

theorem length_groups (t : Nat → CChar × CChar × CChar) (init : List CChar) (n : Nat) :
    ((List.range n).foldl (fun r g => put3 r g (t g).1 (t g).2.1 (t g).2.2) init).length =
      init.length := by
  induction n with
  | zero => rfl
  | succ n ih => simp [List.range_succ, ih, length_put3]

theorem rd_groups (t : Nat → CChar × CChar × CChar) (init : List CChar) (n : Nat)
    (hn : 3 * n ≤ init.length) (g : Nat) (hg : g < n) :
    rd ((List.range n).foldl (fun r g => put3 r g (t g).1 (t g).2.1 (t g).2.2) init) (3 * g)
        = (t g).1 ∧
    rd ((List.range n).foldl (fun r g => put3 r g (t g).1 (t g).2.1 (t g).2.2) init) (3 * g + 1)
        = (t g).2.1 ∧
    rd ((List.range n).foldl (fun r g => put3 r g (t g).1 (t g).2.1 (t g).2.2) init) (3 * g + 2)
        = (t g).2.2 := by
  induction n with
  | zero => omega
  | succ n ih =>
    simp only [List.range_succ, List.foldl_append, List.foldl_cons, List.foldl_nil]
    by_cases hgn : g = n
    · subst hgn
      exact rd_put3 _ g _ _ _ (by rw [length_groups]; omega)
    · have hlt : g < n := by omega
      rw [rd_put3_other _ n (3 * g) _ _ _ (by omega),
        rd_put3_other _ n (3 * g + 1) _ _ _ (by omega),
        rd_put3_other _ n (3 * g + 2) _ _ _ (by omega)]
      exact ih (by omega) hlt

/-! ## The loop bodies, branch by branch -/

theorem groupW_eq (x : List CChar) (g : Nat) :
    groupW x g = wOf (rd x (3 * g)) (rd x (3 * g + 1)) (rd x (3 * g + 2)) := by
  simp only [groupW, wOf]
  split_ifs <;> rfl

theorem keyedPermBody_eq (x k r : List CChar) (i : Nat) :
    keyedPermBody x k r i =
      put3 r i
        (kpChars (rd k (2 * i)) (rd k (2 * i + 1)) (rd x (3 * i)) (rd x (3 * i + 1))
          (rd x (3 * i + 2))).1
        (kpChars (rd k (2 * i)) (rd k (2 * i + 1)) (rd x (3 * i)) (rd x (3 * i + 1))
          (rd x (3 * i + 2))).2.1
        (kpChars (rd k (2 * i)) (rd k (2 * i + 1)) (rd x (3 * i)) (rd x (3 * i + 1))
          (rd x (3 * i + 2))).2.2 := by
  simp only [keyedPermBody, kpChars]
  split_ifs <;> rfl

theorem substEncBody_eq (x r : List CChar) (i : Nat) :
    substEncBody x r i =
      put3 r i (substEncChars (groupW x i)).1 (substEncChars (groupW x i)).2.1
        (substEncChars (groupW x i)).2.2 := by
  simp only [substEncBody, substEncChars]
  split_ifs <;> rfl

theorem substDecBody_eq (x r : List CChar) (i : Nat) :
    substDecBody x r i =
      put3 r i (substDecChars (groupW x i)).1 (substDecChars (groupW x i)).2.1
        (substDecChars (groupW x i)).2.2 := by
  simp only [substDecBody, substDecChars]
  split_ifs <;> rfl

/-! ## Length and content of each stage -/

theorem length_XOR (b k : List CChar) : (XOR b k).length = 27 := by
  unfold XOR
  exact (length_scatter (fun i => i) _ _ 27).trans (List.length_replicate _ _)

theorem rd_XOR (b k : List CChar) (i : Nat) (hi : i < 27) :
    rd (XOR b k) i = xorChar (rd b i) (rd k i) := by
  unfold XOR
  exact rd_gather (fun i => xorChar (rd b i) (rd k i)) _ 27 (by simp) i hi

theorem length_fixedPermEnc (x : List CChar) : (fixedPermEnc x).length = 27 := by
  unfold fixedPermEnc
  rw [List.length_set]
  exact (length_scatter _ _ _ 26).trans (List.length_replicate _ _)

theorem rd_fixedPermEnc (x : List CChar) (i : Nat) (hi : i < 26) :
    rd (fixedPermEnc x) ((3 * i) % 26) = rd x i := by
  unfold fixedPermEnc
  rw [rd_set, if_neg (by omega)]
  exact rd_scatter (fun i => (3 * i) % 26) (fun i => rd x i) _ 26
    (fun a b ha hb h => by simp only at h; omega) i hi (by simp; omega)

theorem rd_fixedPermEnc_last (x : List CChar) : rd (fixedPermEnc x) 26 = rd x 26 := by
  unfold fixedPermEnc
  rw [rd_set, if_pos ⟨rfl, by rw [length_scatter]; simp⟩]

theorem length_fixedPermDec (x : List CChar) : (fixedPermDec x).length = 27 := by
  unfold fixedPermDec
  rw [List.length_set]
  exact (length_scatter (fun i => i) _ _ 26).trans (List.length_replicate _ _)

theorem rd_fixedPermDec (x : List CChar) (i : Nat) (hi : i < 26) :
    rd (fixedPermDec x) i = rd x ((3 * i) % 26) := by
  unfold fixedPermDec
  rw [rd_set, if_neg (by omega)]
  exact rd_gather (fun i => rd x ((3 * i) % 26)) _ 26 (by simp) i hi

theorem rd_fixedPermDec_last (x : List CChar) : rd (fixedPermDec x) 26 = rd x 26 := by
  unfold fixedPermDec
  rw [rd_set, if_pos ⟨rfl, by rw [length_scatter (fun i => i)]; simp⟩]

theorem keyedPerm_eq_groups (x k : List CChar) :
    keyedPerm x k =
      (List.range 9).foldl
        (fun r g => put3 r g
          (kpChars (rd k (2 * g)) (rd k (2 * g + 1)) (rd x (3 * g)) (rd x (3 * g + 1))
            (rd x (3 * g + 2))).1
          (kpChars (rd k (2 * g)) (rd k (2 * g + 1)) (rd x (3 * g)) (rd x (3 * g + 1))
            (rd x (3 * g + 2))).2.1
          (kpChars (rd k (2 * g)) (rd k (2 * g + 1)) (rd x (3 * g)) (rd x (3 * g + 1))
            (rd x (3 * g + 2))).2.2)
        (List.replicate 27 0) := by
  unfold keyedPerm
  congr 1
  funext r g
  exact keyedPermBody_eq x k r g

theorem length_keyedPerm (x k : List CChar) : (keyedPerm x k).length = 27 := by
  rw [keyedPerm_eq_groups]
  exact (length_groups _ _ 9).trans (List.length_replicate _ _)

theorem rd_keyedPerm (x k : List CChar) (g : Nat) (hg : g < 9) :
    rd (keyedPerm x k) (3 * g) =
        (kpChars (rd k (2 * g)) (rd k (2 * g + 1)) (rd x (3 * g)) (rd x (3 * g + 1))
          (rd x (3 * g + 2))).1 ∧
    rd (keyedPerm x k) (3 * g + 1) =
        (kpChars (rd k (2 * g)) (rd k (2 * g + 1)) (rd x (3 * g)) (rd x (3 * g + 1))
          (rd x (3 * g + 2))).2.1 ∧
    rd (keyedPerm x k) (3 * g + 2) =
        (kpChars (rd k (2 * g)) (rd k (2 * g + 1)) (rd x (3 * g)) (rd x (3 * g + 1))
          (rd x (3 * g + 2))).2.2 := by
  rw [keyedPerm_eq_groups]
  exact rd_groups (fun g => kpChars (rd k (2 * g)) (rd k (2 * g + 1)) (rd x (3 * g))
    (rd x (3 * g + 1)) (rd x (3 * g + 2))) _ 9 (by simp) g hg

theorem substEnc_eq_groups (x : List CChar) :
    substEnc x =
      (List.range 9).foldl
        (fun r g => put3 r g (substEncChars (groupW x g)).1 (substEncChars (groupW x g)).2.1
          (substEncChars (groupW x g)).2.2)
        (List.replicate 27 0) := by
  unfold substEnc
  congr 1
  funext r g
  exact substEncBody_eq x r g

theorem length_substEnc (x : List CChar) : (substEnc x).length = 27 := by
  rw [substEnc_eq_groups]
  exact (length_groups _ _ 9).trans (List.length_replicate _ _)

theorem rd_substEnc (x : List CChar) (g : Nat) (hg : g < 9) :
    rd (substEnc x) (3 * g) = (substEncChars (groupW x g)).1 ∧
    rd (substEnc x) (3 * g + 1) = (substEncChars (groupW x g)).2.1 ∧
    rd (substEnc x) (3 * g + 2) = (substEncChars (groupW x g)).2.2 := by
  rw [substEnc_eq_groups]
  exact rd_groups (fun g => substEncChars (groupW x g)) _ 9 (by simp) g hg

theorem substDec_eq_groups (x : List CChar) :
    substDec x =
      (List.range 9).foldl
        (fun r g => put3 r g (substDecChars (groupW x g)).1 (substDecChars (groupW x g)).2.1
          (substDecChars (groupW x g)).2.2)
        (List.replicate 27 0) := by
  unfold substDec
  congr 1
  funext r g
  exact substDecBody_eq x r g

theorem length_substDec (x : List CChar) : (substDec x).length = 27 := by
  rw [substDec_eq_groups]
  exact (length_groups _ _ 9).trans (List.length_replicate _ _)

theorem rd_substDec (x : List CChar) (g : Nat) (hg : g < 9) :
    rd (substDec x) (3 * g) = (substDecChars (groupW x g)).1 ∧
    rd (substDec x) (3 * g + 1) = (substDecChars (groupW x g)).2.1 ∧
    rd (substDec x) (3 * g + 2) = (substDecChars (groupW x g)).2.2 := by
  rw [substDec_eq_groups]
  exact rd_groups (fun g => substDecChars (groupW x g)) _ 9 (by simp) g hg

theorem length_roundEnc (b k s : List CChar) : (roundEnc b k s).length = 27 :=
  length_substEnc _

theorem length_roundDec (b k s : List CChar) : (roundDec b k s).length = 27 :=
  length_XOR _ _

/-! ## Characters of well-formed blocks -/

theorem rd_of_isBits {l : List CChar} (h : IsBits l) {i : Nat} (hi : i < l.length) :
    rd l i = 48 ∨ rd l i = 49 :=
  h _ (rd_mem hi)

theorem isBits_of_rd {l : List CChar} (h : ∀ i, i < l.length → rd l i = 48 ∨ rd l i = 49) :
    IsBits l := by
  intro c hc
  obtain ⟨i, hi, rfl⟩ := List.getElem_of_mem hc
  rw [← rd_eq_getElem hi]
  exact h i hi

theorem rd_of_isBlock {b : List CChar} (h : IsBlock b) {i : Nat} (hi : i < 27) :
    rd b i = 48 ∨ rd b i = 49 :=
  rd_of_isBits h.2 (by rw [h.1]; exact hi)

theorem isBlock_of_rd {b : List CChar} (hl : b.length = 27)
    (h : ∀ i, i < 27 → rd b i = 48 ∨ rd b i = 49) : IsBlock b :=
  ⟨hl, isBits_of_rd (fun i hi => h i (by rw [← hl]; exact hi))⟩

theorem isBlock_of_groups {b : List CChar} (hl : b.length = 27)
    (h : ∀ g, g < 9 → (rd b (3 * g) = 48 ∨ rd b (3 * g) = 49) ∧
      (rd b (3 * g + 1) = 48 ∨ rd b (3 * g + 1) = 49) ∧
      (rd b (3 * g + 2) = 48 ∨ rd b (3 * g + 2) = 49)) : IsBlock b := by
  apply isBlock_of_rd hl
  intro i hi
  obtain ⟨h0, h1, h2⟩ := h (i / 3) (by omega)
  have hmod : i % 3 = 0 ∨ i % 3 = 1 ∨ i % 3 = 2 := by omega
  rcases hmod with hm | hm | hm
  · have : 3 * (i / 3) = i := by omega
    rwa [this] at h0
  · have : 3 * (i / 3) + 1 = i := by omega
    rwa [this] at h1
  · have : 3 * (i / 3) + 2 = i := by omega
    rwa [this] at h2

/-! ## Characters: exclusive-or, selected orderings, substitution tables -/

theorem xorChar_bits {l r : CChar} (hl : l = 48 ∨ l = 49) (hr : r = 48 ∨ r = 49) :
    (xorChar l r = 48 ∨ xorChar l r = 49) ∧ xorChar (xorChar l r) r = l := by
  rcases hl with rfl | rfl <;> rcases hr with rfl | rfl <;> decide

theorem kpChars_kpChars (a0 a1 c0 c1 c2 : CChar) :
    kpChars a0 a1 (kpChars a0 a1 c0 c1 c2).1 (kpChars a0 a1 c0 c1 c2).2.1
      (kpChars a0 a1 c0 c1 c2).2.2 = (c0, c1, c2) := by
  simp only [kpChars]
  split_ifs <;> rfl

theorem kpChars_bits {a0 a1 c0 c1 c2 : CChar} (h0 : c0 = 48 ∨ c0 = 49) (h1 : c1 = 48 ∨ c1 = 49)
    (h2 : c2 = 48 ∨ c2 = 49) :
    ((kpChars a0 a1 c0 c1 c2).1 = 48 ∨ (kpChars a0 a1 c0 c1 c2).1 = 49) ∧
    ((kpChars a0 a1 c0 c1 c2).2.1 = 48 ∨ (kpChars a0 a1 c0 c1 c2).2.1 = 49) ∧
    ((kpChars a0 a1 c0 c1 c2).2.2 = 48 ∨ (kpChars a0 a1 c0 c1 c2).2.2 = 49) := by
  simp only [kpChars]
  split_ifs <;> exact ⟨by assumption, by assumption, by assumption⟩

theorem substEncChars_bits (W : Int) :
    ((substEncChars W).1 = 48 ∨ (substEncChars W).1 = 49) ∧
    ((substEncChars W).2.1 = 48 ∨ (substEncChars W).2.1 = 49) ∧
    ((substEncChars W).2.2 = 48 ∨ (substEncChars W).2.2 = 49) := by
  simp only [substEncChars]
  split_ifs <;> decide

theorem substDecChars_bits (W : Int) :
    ((substDecChars W).1 = 48 ∨ (substDecChars W).1 = 49) ∧
    ((substDecChars W).2.1 = 48 ∨ (substDecChars W).2.1 = 49) ∧
    ((substDecChars W).2.2 = 48 ∨ (substDecChars W).2.2 = 49) := by
  simp only [substDecChars]
  split_ifs <;> decide

theorem substDecChars_substEncChars {c0 c1 c2 : CChar} (h0 : c0 = 48 ∨ c0 = 49)
    (h1 : c1 = 48 ∨ c1 = 49) (h2 : c2 = 48 ∨ c2 = 49) :
    substDecChars (wOf (substEncChars (wOf c0 c1 c2)).1 (substEncChars (wOf c0 c1 c2)).2.1
      (substEncChars (wOf c0 c1 c2)).2.2) = (c0, c1, c2) := by
  rcases h0 with rfl | rfl <;> rcases h1 with rfl | rfl <;> rcases h2 with rfl | rfl <;> decide

theorem substEncChars_substDecChars {c0 c1 c2 : CChar} (h0 : c0 = 48 ∨ c0 = 49)
    (h1 : c1 = 48 ∨ c1 = 49) (h2 : c2 = 48 ∨ c2 = 49) :
    substEncChars (wOf (substDecChars (wOf c0 c1 c2)).1 (substDecChars (wOf c0 c1 c2)).2.1
      (substDecChars (wOf c0 c1 c2)).2.2) = (c0, c1, c2) := by
  rcases h0 with rfl | rfl <;> rcases h1 with rfl | rfl <;> rcases h2 with rfl | rfl <;> decide

/-! ## Each stage keeps blocks well formed -/

theorem isBlock_XOR {b k : List CChar} (hb : IsBlock b) (hk : IsBlock k) : IsBlock (XOR b k) :=
  isBlock_of_rd (length_XOR b k) (fun i hi => by
    rw [rd_XOR b k i hi]
    exact (xorChar_bits (rd_of_isBlock hb hi) (rd_of_isBlock hk hi)).1)

theorem isBlock_fixedPermEnc {x : List CChar} (hx : IsBlock x) : IsBlock (fixedPermEnc x) :=
  isBlock_of_rd (length_fixedPermEnc x) (fun i hi => by
    by_cases h26 : i = 26
    · subst h26
      rw [rd_fixedPermEnc_last]
      exact rd_of_isBlock hx (by omega)
    · have h := rd_fixedPermEnc x ((9 * i) % 26) (by omega)
      have e : (3 * ((9 * i) % 26)) % 26 = i := by omega
      rw [e] at h
      rw [h]
      exact rd_of_isBlock hx (by omega))

theorem isBlock_fixedPermDec {x : List CChar} (hx : IsBlock x) : IsBlock (fixedPermDec x) :=
  isBlock_of_rd (length_fixedPermDec x) (fun i hi => by
    by_cases h26 : i = 26
    · subst h26
      rw [rd_fixedPermDec_last]
      exact rd_of_isBlock hx (by omega)
    · rw [rd_fixedPermDec x i (by omega)]
      exact rd_of_isBlock hx (by omega))

theorem isBlock_keyedPerm {x : List CChar} (hx : IsBlock x) (k : List CChar) :
    IsBlock (keyedPerm x k) :=
  isBlock_of_groups (length_keyedPerm x k) (fun g hg => by
    obtain ⟨e0, e1, e2⟩ := rd_keyedPerm x k g hg
    rw [e0, e1, e2]
    exact kpChars_bits (rd_of_isBlock hx (by omega)) (rd_of_isBlock hx (by omega))
      (rd_of_isBlock hx (by omega)))

theorem isBlock_substEnc (x : List CChar) : IsBlock (substEnc x) :=
  isBlock_of_groups (length_substEnc x) (fun g hg => by
    obtain ⟨e0, e1, e2⟩ := rd_substEnc x g hg
    rw [e0, e1, e2]
    exact substEncChars_bits _)

theorem isBlock_substDec (x : List CChar) : IsBlock (substDec x) :=
  isBlock_of_groups (length_substDec x) (fun g hg => by
    obtain ⟨e0, e1, e2⟩ := rd_substDec x g hg
    rw [e0, e1, e2]
    exact substDecChars_bits _)

/-- The result of `roundEnc` is a block, whatever the characters of its arguments. -/
theorem isBlock_roundEnc (b k s : List CChar) : IsBlock (roundEnc b k s) :=
  isBlock_substEnc _

/-- The result of `roundDec` is a block when the big key is one, whatever the characters
of the other arguments. -/
theorem isBlock_roundDec (b : List CChar) {k : List CChar} (hk : IsBlock k) (s : List CChar) :
    IsBlock (roundDec b k s) :=
  isBlock_XOR (isBlock_fixedPermDec (isBlock_keyedPerm (isBlock_substDec b) s)) hk

/-! ## Each stage is undone by its counterpart -/

theorem XOR_XOR {b k : List CChar} (hb : IsBlock b) (hk : IsBlock k) : XOR (XOR b k) k = b :=
  ext_rd (length_XOR _ _) hb.1 (fun i hi => by
    rw [rd_XOR _ _ i hi, rd_XOR _ _ i hi]
    exact (xorChar_bits (rd_of_isBlock hb hi) (rd_of_isBlock hk hi)).2)

theorem fixedPermDec_fixedPermEnc {x : List CChar} (hx : x.length = 27) :
    fixedPermDec (fixedPermEnc x) = x :=
  ext_rd (length_fixedPermDec _) hx (fun i hi => by
    by_cases h26 : i = 26
    · subst h26
      rw [rd_fixedPermDec_last, rd_fixedPermEnc_last]
    · rw [rd_fixedPermDec _ i (by omega), rd_fixedPermEnc x i (by omega)])

theorem fixedPermEnc_fixedPermDec {x : List CChar} (hx : x.length = 27) :
    fixedPermEnc (fixedPermDec x) = x :=
  ext_rd (length_fixedPermEnc _) hx (fun i hi => by
    by_cases h26 : i = 26
    · subst h26
      rw [rd_fixedPermEnc_last, rd_fixedPermDec_last]
    · have h := rd_fixedPermEnc (fixedPermDec x) ((9 * i) % 26) (by omega)
      have e : (3 * ((9 * i) % 26)) % 26 = i := by omega
      rw [e] at h
      rw [h, rd_fixedPermDec x _ (by omega), e])

theorem keyedPerm_keyedPerm {x : List CChar} (hx : x.length = 27) (k : List CChar) :
    keyedPerm (keyedPerm x k) k = x :=
  ext_groups (length_keyedPerm _ _) hx (fun g hg => by
    obtain ⟨e0, e1, e2⟩ := rd_keyedPerm (keyedPerm x k) k g hg
    obtain ⟨f0, f1, f2⟩ := rd_keyedPerm x k g hg
    rw [e0, e1, e2, f0, f1, f2, kpChars_kpChars]
    exact ⟨rfl, rfl, rfl⟩)

theorem substDec_substEnc {x : List CChar} (hx : IsBlock x) : substDec (substEnc x) = x :=
  ext_groups (length_substDec _) hx.1 (fun g hg => by
    obtain ⟨e0, e1, e2⟩ := rd_substDec (substEnc x) g hg
    obtain ⟨f0, f1, f2⟩ := rd_substEnc x g hg
    rw [e0, e1, e2, groupW_eq (substEnc x), f0, f1, f2, groupW_eq x,
      substDecChars_substEncChars (rd_of_isBlock hx (by omega)) (rd_of_isBlock hx (by omega))
        (rd_of_isBlock hx (by omega))]
    exact ⟨rfl, rfl, rfl⟩)

theorem substEnc_substDec {x : List CChar} (hx : IsBlock x) : substEnc (substDec x) = x :=
  ext_groups (length_substEnc _) hx.1 (fun g hg => by
    obtain ⟨e0, e1, e2⟩ := rd_substEnc (substDec x) g hg
    obtain ⟨f0, f1, f2⟩ := rd_substDec x g hg
    rw [e0, e1, e2, groupW_eq (substDec x), f0, f1, f2, groupW_eq x,
      substEncChars_substDecChars (rd_of_isBlock hx (by omega)) (rd_of_isBlock hx (by omega))
        (rd_of_isBlock hx (by omega))]
    exact ⟨rfl, rfl, rfl⟩)

/-- One decryption round undoes one encryption round with the same keys. -/
theorem roundDec_roundEnc_aux {b k : List CChar} (hb : IsBlock b) (hk : IsBlock k)
    (s : List CChar) : roundDec (roundEnc b k s) k s = b := by
  have h1 : IsBlock (XOR b k) := isBlock_XOR hb hk
  have h2 : IsBlock (fixedPermEnc (XOR b k)) := isBlock_fixedPermEnc h1
  have h3 : IsBlock (keyedPerm (fixedPermEnc (XOR b k)) s) := isBlock_keyedPerm h2 s
  simp only [roundDec, roundEnc]
  rw [substDec_substEnc h3, keyedPerm_keyedPerm h2.1, fixedPermDec_fixedPermEnc h1.1,
    XOR_XOR hb hk]

/-- One encryption round undoes one decryption round with the same keys. -/
theorem roundEnc_roundDec_aux {b k : List CChar} (hb : IsBlock b) (hk : IsBlock k)
    (s : List CChar) : roundEnc (roundDec b k s) k s = b := by
  have h1 : IsBlock (substDec b) := isBlock_substDec b
  have h2 : IsBlock (keyedPerm (substDec b) s) := isBlock_keyedPerm h1 s
  have h3 : IsBlock (fixedPermDec (keyedPerm (substDec b) s)) := isBlock_fixedPermDec h2
  simp only [roundDec, roundEnc]
  rw [XOR_XOR h3 hk, fixedPermEnc_fixedPermDec h2.1, keyedPerm_keyedPerm h1.1,
    substEnc_substDec hb]

/-! ## The copy of a well-formed block -/

/-- On a buffer of at least `n` characters with no terminator among the first `n`,
`strncpy` copies exactly the first `n` characters. -/
theorem strncpy_take : ∀ (src : List CChar) (n : Nat), n ≤ src.length →
    (∀ c ∈ src.take n, c ≠ 0) → strncpy src n = .ok (src.take n)
  | _, 0, _, _ => by simp [strncpy]
  | [], _ + 1, h, _ => by simp at h
  | c :: cs, n + 1, h, h0 => by
    have hc : c ≠ 0 := h0 c (by simp)
    have ih := strncpy_take cs n (by simpa using h)
      (fun d hd => h0 d (by simp only [List.take_succ_cons, List.mem_cons]; exact Or.inr hd))
    simp only [strncpy, if_neg hc, ih, List.take_succ_cons]

theorem ne_zero_of_isBits {l : List CChar} (h : IsBits l) : ∀ c ∈ l, c ≠ 0 := by
  intro c hc
  rcases h c hc with rfl | rfl <;> decide

theorem strncpy_block {b : List CChar} (hb : IsBlock b) : strncpy b 27 = .ok b := by
  have h := strncpy_take b 27 (by rw [hb.1])
    (fun c hc => ne_zero_of_isBits hb.2 c (List.mem_of_mem_take hc))
  rwa [List.take_of_length_le (by rw [hb.1])] at h

/-! ## Monadic loops -/

theorem ok_bind {α β : Type} (x : α) (f : α → Except Fault β) :
    (Except.ok x >>= f) = f x := rfl

theorem error_bind {α β : Type} (e : Fault) (f : α → Except Fault β) :
    ((Except.error e : Except Fault α) >>= f) = .error e := rfl

theorem foldlM_ok {σ : Type} (f : σ → Nat → Except Fault σ) (g : σ → Nat → σ)
    (P : σ → Prop) (l : List Nat)
    (hstep : ∀ s i, i ∈ l → P s → f s i = .ok (g s i) ∧ P (g s i)) :
    ∀ s, P s → l.foldlM f s = .ok (l.foldl g s) ∧ P (l.foldl g s) := by
  induction l with
  | nil => intro s hs; exact ⟨rfl, hs⟩
  | cons a l ih =>
    intro s hs
    obtain ⟨h1, h2⟩ := hstep s a (List.mem_cons_self _ _) hs
    have := ih (fun s i hi hP => hstep s i (List.mem_cons_of_mem _ hi) hP) (g s a) h2
    simp only [List.foldlM_cons, List.foldl_cons, h1]
    exact this

theorem foldlM_error {σ : Type} (f : σ → Nat → Except Fault σ) (l : List Nat) (a : Nat)
    (s : σ) (e : Fault) (h : f s a = .error e) : (a :: l).foldlM f s = .error e := by
  simp only [List.foldlM_cons, h]
  rfl

/-! ## Sub-keys -/

theorem readKey_ok {key : List CChar} {r i : Nat} (h : i < key.length) :
    readKey key r i = .ok (rd key i) := by
  simp [readKey, h]

theorem readKey_error {key : List CChar} {r i : Nat} (h : key.length ≤ i) :
    readKey key r i = .error (.keyReadPastEnd r i) := by
  simp [readKey, Nat.not_lt.mpr h]

/-- The index list of a loop, split at iteration `m`. -/
theorem range_split {m n : Nat} (h : m < n) :
    List.range n = List.range m ++ m :: List.range' (m + 1) (n - (m + 1)) := by
  have h2 : n = (n - (m + 1) + 1) + m := by omega
  rw [List.range_eq_range', List.range_eq_range']
  conv_lhs => rw [h2]
  rw [← List.range'_append_1, Nat.zero_add, List.range'_succ]

/-- The sub-key loop while its reads stay inside the key. -/
theorem subKey_loop_ok (key : List CChar) (r base m : Nat)
    (h : ∀ j, j < m → base + j < key.length) (init : List CChar) :
    (List.range m).foldlM
        (fun buf j => do
          let c ← readKey key r (base + j)
          pure (buf.set j c)) init =
      .ok ((List.range m).foldl (fun buf j => buf.set j (rd key (base + j))) init) :=
  (foldlM_ok
    (fun buf j => do
      let c ← readKey key r (base + j)
      pure (buf.set j c))
    (fun buf j => buf.set j (rd key (base + j))) (fun _ => True) (List.range m)
    (fun s i hi _ => by
      have hi' : i < m := List.mem_range.mp hi
      refine ⟨?_, trivial⟩
      show (do let c ← readKey key r (base + i); pure (s.set i c)) = _
      rw [readKey_ok (h i hi')]
      rfl) init trivial).1

/-- When the slice lies inside the key, the sub-key loop yields the slice. -/
theorem subKey_ok (key : List CChar) (r base n : Nat) (h : base + n ≤ key.length) :
    subKey key r base n = .ok ((key.drop base).take n) := by
  unfold subKey
  rw [subKey_loop_ok key r base n (fun j hj => by omega)]
  congr 1
  apply ext_rd (n := n) ((length_scatter (fun i => i) _ _ n).trans (List.length_replicate _ _))
  · rw [List.length_take, List.length_drop]; omega
  · intro i hi
    rw [rd_gather (fun j => rd key (base + j)) _ n (by simp) i hi, rd_take hi, rd_drop]

/-- When the key ends inside the slice (or before it), the sub-key loop reads past the
end of the key, at the first index of the slice the key does not have. -/
theorem subKey_error (key : List CChar) (r base n : Nat) (hn : 0 < n)
    (h : key.length < base + n) :
    subKey key r base n = .error (.keyReadPastEnd r (max base key.length)) := by
  unfold subKey
  have hm : max base key.length - base < n := by omega
  rw [range_split hm, List.foldlM_append,
    subKey_loop_ok key r base _ (fun j hj => by omega)]
  have hidx : base + (max base key.length - base) = max base key.length := by omega
  rw [ok_bind]
  apply foldlM_error
  show (do let c ← readKey key r (base + (max base key.length - base)); pure _) = _
  rw [hidx, readKey_error (by omega)]
  rfl

/-! ## Round keys -/

theorem length_specBigKey {key : List CChar} {i : Nat} (h : 45 * i + 27 ≤ key.length) :
    (specBigKey key i).length = 27 := by
  unfold specBigKey
  rw [List.length_take, List.length_drop]; omega

theorem isBits_specBigKey {key : List CChar} (hk : IsBits key) (i : Nat) :
    IsBits (specBigKey key i) :=
  fun c hc => hk c (List.mem_of_mem_drop (List.mem_of_mem_take hc))

theorem isBlock_specBigKey {key : List CChar} (hk : IsBits key) {i : Nat}
    (h : 45 * i + 27 ≤ key.length) : IsBlock (specBigKey key i) :=
  ⟨length_specBigKey h, isBits_specBigKey hk i⟩

/-! ## One iteration of the round loops -/

/-- An iteration of `encrypt` whose sub-keys do not fit in the key reads past its end. -/
theorem encryptBody_error (key b : List CChar) (i : Nat) (h1 : 45 * i ≤ key.length)
    (h2 : key.length < 45 * i + 45) :
    encryptBody key b i = .error (.keyReadPastEnd i key.length) := by
  unfold encryptBody
  by_cases hbig : key.length < 45 * i + 27
  · rw [subKey_error key i (45 * i) 27 (by omega) hbig, error_bind,
      Nat.max_eq_right h1]
  · rw [subKey_ok key i (45 * i) 27 (by omega), ok_bind,
      subKey_error key i (45 * i + 27) 18 (by omega) (by omega), error_bind,
      Nat.max_eq_right (by omega)]

/-- An iteration of `decrypt` whose sub-keys do not fit in the key reads past its end. -/
theorem decryptBody_error (key b : List CChar) (i : Nat) (h2 : key.length < 45 * i + 45) :
    decryptBody key b i = .error (.keyReadPastEnd i (max key.length (45 * i))) := by
  unfold decryptBody
  by_cases hbig : key.length < 45 * i + 27
  · rw [subKey_error key i (45 * i) 27 (by omega) hbig, error_bind, Nat.max_comm]
  · rw [subKey_ok key i (45 * i) 27 (by omega), ok_bind,
      subKey_error key i (45 * i + 27) 18 (by omega) (by omega), error_bind,
      Nat.max_eq_right (by omega), Nat.max_eq_left (by omega)]

/-! ## The 56 rounds as functions -/

theorem isBlock_specEncryptRounds (key : List CChar) (n : Nat) {b : List CChar}
    (hb : IsBlock b) : IsBlock (specEncryptRounds key n b) := by
  cases n with
  | zero => exact hb
  | succ n => exact isBlock_roundEnc _ _ _

theorem specDecryptRounds_specEncryptRounds {key : List CChar} (hk : IsBits key) (n : Nat)
    (hn : 45 * n ≤ key.length) {b : List CChar} (hb : IsBlock b) :
    specDecryptRounds key n (specEncryptRounds key n b) = b := by
  induction n with
  | zero => rfl
  | succ n ih =>
    show specDecryptRounds key n (roundDec (roundEnc (specEncryptRounds key n b) _ _) _ _) = b
    rw [roundDec_roundEnc_aux (isBlock_specEncryptRounds key n hb)
      (isBlock_specBigKey hk (by omega))]
    exact ih (by omega)

/-! ## Keys that agree on their first 2520 characters -/

theorem isBits_replicate (n : Nat) (c : CChar) (hc : c = 48 ∨ c = 49) :
    IsBits (List.replicate n c) := by
  intro d hd
  rw [List.eq_of_mem_replicate hd]
  exact hc

/-! ## The stages of a round and their wording in the specification -/

theorem rd_map_range (f : Nat → CChar) {n i : Nat} (h : i < n) :
    rd ((List.range n).map f) i = f i := by
  simp [rd_eq_getElem?, List.getElem?_range h]

theorem length_map_range (f : Nat → CChar) (n : Nat) : ((List.range n).map f).length = n := by
  rw [List.length_map, List.length_range]

theorem specPermSource_eq :
    ∀ j, j < 27 → specPermSource j = if j = 26 then 26 else (9 * j) % 26 := by decide

/-- The forward loop of `roundEnc` is the forward permutation of the specification. -/
theorem fixedPermEnc_eq_spec (x : List CChar) : fixedPermEnc x = specFixedPermForward x :=
  ext_rd (length_fixedPermEnc x) (length_map_range _ 27) (fun j hj => by
    unfold specFixedPermForward
    rw [rd_map_range _ hj, specPermSource_eq j hj]
    by_cases h26 : j = 26
    · subst h26
      rw [if_pos rfl]
      exact rd_fixedPermEnc_last x
    · rw [if_neg h26]
      have h := rd_fixedPermEnc x ((9 * j) % 26) (by omega)
      have e : (3 * ((9 * j) % 26)) % 26 = j := by omega
      rw [e] at h
      exact h)

/-- The inverse loop of `roundDec` is the inverse permutation of the specification. -/
theorem fixedPermDec_eq_spec (x : List CChar) : fixedPermDec x = specFixedPermInverse x :=
  ext_rd (length_fixedPermDec x) (length_map_range _ 27) (fun i hi => by
    unfold specFixedPermInverse specPermTarget
    rw [rd_map_range _ hi]
    by_cases h26 : i = 26
    · subst h26
      rw [if_neg (by omega)]
      exact rd_fixedPermDec_last x
    · rw [if_pos (by omega)]
      exact rd_fixedPermDec x i (by omega))


theorem rd_specSubst (t : List Nat) (x : List CChar) (g : Nat) (hg : g < 9) :
    rd (specSubst t x) (3 * g) =
        (specGroup (t.getD (specValue (rd x (3 * g)) (rd x (3 * g + 1)) (rd x (3 * g + 2)))
          0)).1 ∧
    rd (specSubst t x) (3 * g + 1) =
        (specGroup (t.getD (specValue (rd x (3 * g)) (rd x (3 * g + 1)) (rd x (3 * g + 2)))
          0)).2.1 ∧
    rd (specSubst t x) (3 * g + 2) =
        (specGroup (t.getD (specValue (rd x (3 * g)) (rd x (3 * g + 1)) (rd x (3 * g + 2)))
          0)).2.2 := by
  have d0 : 3 * g / 3 = g := by omega
  have d1 : (3 * g + 1) / 3 = g := by omega
  have d2 : (3 * g + 2) / 3 = g := by omega
  have m0 : 3 * g % 3 = 0 := by omega
  have m1 : (3 * g + 1) % 3 = 1 := by omega
  have m2 : (3 * g + 2) % 3 = 2 := by omega
  unfold specSubst
  rw [rd_map_range _ (show 3 * g < 27 by omega), rd_map_range _ (show 3 * g + 1 < 27 by omega),
    rd_map_range _ (show 3 * g + 2 < 27 by omega)]
  simp only [d0, d1, d2, m0, m1, m2]
  exact ⟨rfl, rfl, rfl⟩

theorem substEncChars_eq_table {c0 c1 c2 : CChar} (h0 : c0 = 48 ∨ c0 = 49)
    (h1 : c1 = 48 ∨ c1 = 49) (h2 : c2 = 48 ∨ c2 = 49) :
    substEncChars (wOf c0 c1 c2) = specGroup (specForwardTable.getD (specValue c0 c1 c2) 0) := by
  rcases h0 with rfl | rfl <;> rcases h1 with rfl | rfl <;> rcases h2 with rfl | rfl <;> decide

theorem substDecChars_eq_table {c0 c1 c2 : CChar} (h0 : c0 = 48 ∨ c0 = 49)
    (h1 : c1 = 48 ∨ c1 = 49) (h2 : c2 = 48 ∨ c2 = 49) :
    substDecChars (wOf c0 c1 c2) = specGroup (specInverseTable.getD (specValue c0 c1 c2) 0) := by
  rcases h0 with rfl | rfl <;> rcases h1 with rfl | rfl <;> rcases h2 with rfl | rfl <;> decide

/-- On a block, the substitution loop of `roundEnc` applies the forward table. -/
theorem substEnc_eq_spec {x : List CChar} (hx : IsBlock x) :
    substEnc x = specSubst specForwardTable x :=
  ext_groups (length_substEnc x) (length_map_range _ 27) (fun g hg => by
    obtain ⟨e0, e1, e2⟩ := rd_substEnc x g hg
    obtain ⟨f0, f1, f2⟩ := rd_specSubst specForwardTable x g hg
    rw [e0, e1, e2, f0, f1, f2, groupW_eq,
      substEncChars_eq_table (rd_of_isBlock hx (by omega)) (rd_of_isBlock hx (by omega))
        (rd_of_isBlock hx (by omega))]
    exact ⟨rfl, rfl, rfl⟩)

/-- On a block, the substitution loop of `roundDec` applies the inverse table. -/
theorem substDec_eq_spec {x : List CChar} (hx : IsBlock x) :
    substDec x = specSubst specInverseTable x :=
  ext_groups (length_substDec x) (length_map_range _ 27) (fun g hg => by
    obtain ⟨e0, e1, e2⟩ := rd_substDec x g hg
    obtain ⟨f0, f1, f2⟩ := rd_specSubst specInverseTable x g hg
    rw [e0, e1, e2, f0, f1, f2, groupW_eq,
      substDecChars_eq_table (rd_of_isBlock hx (by omega)) (rd_of_isBlock hx (by omega))
        (rd_of_isBlock hx (by omega))]
    exact ⟨rfl, rfl, rfl⟩)

theorem value_tables :
    ∀ v, v < 8 →
      forwardValue v = specForwardTable.getD v 0 ∧ inverseValue v = specInverseTable.getD v 0 ∧
      inverseValue (forwardValue v) = v ∧ forwardValue (inverseValue v) = v := by decide

theorem xorChar_eq_xor {l r : CChar} (hl : l = 48 ∨ l = 49) (hr : r = 48 ∨ r = 49) :
    xorChar l r = charOf (Bool.xor (bitOf l) (bitOf r)) := by
  rcases hl with rfl | rfl <;> rcases hr with rfl | rfl <;> decide

/-! ## Characters other than `'1'` in the substitution -/

theorem rd_map (f : CChar → CChar) (x : List CChar) (i : Nat) (hi : i < x.length) :
    rd (x.map f) i = f (rd x i) := by
  simp [rd_eq_getElem?, List.getElem?_eq_getElem hi]

theorem rd_map_eq_one (x : List CChar) (i : Nat) :
    (rd (x.map (fun c => if c = 49 then 49 else 48)) i = 49) ↔ rd x i = 49 := by
  by_cases hi : i < x.length
  · rw [rd_map _ x i hi]
    by_cases h : rd x i = 49
    · simp [h]
    · simp [h]
  · have h1 : rd x i = 0 := by
      rw [rd_eq_getElem?, List.getElem?_eq_none (by omega)]; rfl
    have h2 : rd (x.map (fun c => if c = 49 then 49 else 48)) i = 0 := by
      rw [rd_eq_getElem?, List.getElem?_eq_none (by rw [List.length_map]; omega)]; rfl
    rw [h1, h2]

theorem groupW_map (x : List CChar) (g : Nat) :
    groupW (x.map (fun c => if c = 49 then 49 else 48)) g = groupW x g := by
  simp only [groupW, rd_map_eq_one]

/-- The substitution loop of `roundEnc` reads every character other than `'1'` as `'0'`. -/
theorem substEnc_map (x : List CChar) :
    substEnc (x.map (fun c => if c = 49 then 49 else 48)) = substEnc x := by
  rw [substEnc_eq_groups, substEnc_eq_groups]
  simp only [groupW_map]

/-! ## Encryption after decryption -/

theorem specEncryptRounds_specDecryptRounds {key : List CChar} (hk : IsBits key) (n : Nat)
    (hn : 45 * n ≤ key.length) {c : List CChar} (hc : IsBlock c) :
    specEncryptRounds key n (specDecryptRounds key n c) = c := by
  induction n generalizing c with
  | zero => rfl
  | succ n ih =>
    rw [specDecryptRounds, specEncryptRounds,
      ih (by omega) (isBlock_roundDec c (isBlock_specBigKey hk (by omega)) _),
      roundEnc_roundDec_aux hc (isBlock_specBigKey hk (by omega))]

/-! ## Fixed points of the fixed permutation -/

theorem isBlock_unitBlock (p : Nat) : IsBlock (unitBlock p) :=
  isBlock_of_rd (length_map_range _ 27) (fun i hi => by
    unfold unitBlock
    rw [rd_map_range _ hi]
    split
    · exact Or.inr rfl
    · exact Or.inl rfl)

theorem rd_unitBlock (p i : Nat) (hi : i < 27) :
    rd (unitBlock p) i = if i = p then 49 else 48 := by
  unfold unitBlock
  rw [rd_map_range _ hi]

/-- Positions 0, 13 and 26 keep their bit. -/
theorem fixedPermEnc_fixed (x : List CChar) (p : Nat) (hp : p = 0 ∨ p = 13 ∨ p = 26) :
    rd (fixedPermEnc x) p = rd x p := by
  rcases hp with rfl | rfl | rfl
  · exact rd_fixedPermEnc x 0 (by omega)
  · exact rd_fixedPermEnc x 13 (by omega)
  · exact rd_fixedPermEnc_last x

/-- At every other position the block with a single `'1'` there loses that `'1'`. -/
theorem fixedPermEnc_moved (p : Nat) (hp : p < 27) (h : ¬ (p = 0 ∨ p = 13 ∨ p = 26)) :
    rd (fixedPermEnc (unitBlock p)) p ≠ rd (unitBlock p) p := by
  have h1 := rd_fixedPermEnc (unitBlock p) ((9 * p) % 26) (by omega)
  have e : (3 * ((9 * p) % 26)) % 26 = p := by omega
  rw [e, rd_unitBlock p _ (by omega), if_neg (by omega)] at h1
  rw [h1, rd_unitBlock p p hp, if_pos rfl]
  decide

/-! ## The copy of a round result -/

/-- A round result without terminator makes `strcpy` run past the end of both buffers. -/
theorem strcpy_no_terminator {r : List CChar} (h : ∀ c ∈ r, c ≠ 0) (i : Nat) :
    strcpy r i = .error (.strcpyPastEnd i) := by
  unfold strcpy
  rw [if_neg (fun h0 => h 0 h0 rfl)]

/-- With the sub-keys inside the key, an iteration of `encrypt` hands `roundEnc` of the
current block and of the two slices of the key to `strcpy`. -/
theorem encryptBody_eq (key b : List CChar) (i : Nat) (h : 45 * i + 45 ≤ key.length) :
    encryptBody key b i =
      (strcpy (roundEnc b (specBigKey key i) (specSmallKey key i)) i >>= fun nb =>
        pure (copyBack b nb)) := by
  unfold encryptBody
  rw [subKey_ok key i (45 * i) 27 (by omega), ok_bind,
    subKey_ok key i (45 * i + 27) 18 (by omega), ok_bind]
  rfl

/-- With the sub-keys inside the key, an iteration of `decrypt` hands `roundDec` of the
current block and of the two slices of the key to `strcpy`. -/
theorem decryptBody_eq (key b : List CChar) (i : Nat) (h : 45 * i + 45 ≤ key.length) :
    decryptBody key b i =
      (strcpy (roundDec b (specBigKey key i) (specSmallKey key i)) i >>= fun nb =>
        pure (copyBack b nb)) := by
  unfold decryptBody
  rw [subKey_ok key i (45 * i) 27 (by omega), ok_bind,
    subKey_ok key i (45 * i + 27) 18 (by omega), ok_bind]
  rfl

/-- The result of `roundEnc` never holds a terminator: the `strcpy` of every iteration of
`encrypt` that reaches it runs past the end of both buffers. -/
theorem encryptBody_pastEnd (key b : List CChar) (i : Nat) (h : 45 * i + 45 ≤ key.length) :
    encryptBody key b i = .error (.strcpyPastEnd i) := by
  rw [encryptBody_eq key b i h,
    strcpy_no_terminator (ne_zero_of_isBits (isBlock_roundEnc _ _ _).2) i, error_bind]

/-- Under a key of `'0'` and `'1'` the result of `roundDec` holds no terminator: the
`strcpy` of every iteration of `decrypt` that reaches it runs past the end of both
buffers. -/
theorem decryptBody_pastEnd (key b : List CChar) (i : Nat) (h : 45 * i + 45 ≤ key.length)
    (hk : IsBits key) : decryptBody key b i = .error (.strcpyPastEnd i) := by
  rw [decryptBody_eq key b i h,
    strcpy_no_terminator
      (ne_zero_of_isBits (isBlock_roundDec b (isBlock_specBigKey hk (by omega)) _).2) i,
    error_bind]

/-! ## The copy of the block -/

/-- A buffer shorter than `n` characters without terminator is read past its end. -/
theorem strncpy_short : ∀ (src : List CChar) (n : Nat), src.length < n →
    (∀ c ∈ src, c ≠ 0) → strncpy src n = .error .blockReadPastEnd
  | _, 0, h, _ => by omega
  | [], _ + 1, _, _ => rfl
  | c :: cs, n + 1, h, h0 => by
    have hc : c ≠ 0 := h0 c (List.mem_cons_self _ _)
    have ih := strncpy_short cs n (by simpa using h)
      (fun d hd => h0 d (List.mem_cons_of_mem _ hd))
    simp only [strncpy, if_neg hc, ih]

/-- A buffer whose first terminator is at index `m`, `m < n`, is copied up to the
terminator and filled with terminators. -/
theorem strncpy_pad : ∀ (src : List CChar) (n m : Nat), m < n → m < src.length →
    rd src m = 0 → (∀ c ∈ src.take m, c ≠ 0) →
    strncpy src n = .ok (src.take m ++ List.replicate (n - m) 0)
  | _, 0, _, h, _, _, _ => by omega
  | [], _ + 1, _, _, h, _, _ => by simp at h
  | c :: cs, n + 1, 0, _, _, h0, _ => by
    have hc : c = 0 := h0
    simp only [strncpy, if_pos hc, List.take_zero, List.nil_append, Nat.sub_zero]
  | c :: cs, n + 1, m + 1, h1, h2, h0, hne => by
    have hc : c ≠ 0 := hne c (by simp)
    have ih := strncpy_pad cs n m (by omega) (by simpa using h2) h0
      (fun d hd => hne d (by simp only [List.take_succ_cons, List.mem_cons]; exact Or.inr hd))
    simp only [strncpy, if_neg hc, ih, List.take_succ_cons, List.cons_append,
      Nat.add_sub_add_right]

/-! ## The two drivers -/

/-- A block that `strncpy` cannot copy stops `encrypt` with the fault of `strncpy`. -/
theorem encrypt_strncpy_error (p key : List CChar) (e : Fault)
    (hp : strncpy p 27 = .error e) : encrypt p key = .error e := by
  unfold encrypt
  rw [hp, error_bind]

theorem decrypt_strncpy_error (p key : List CChar) (e : Fault)
    (hp : strncpy p 27 = .error e) : decrypt p key = .error e := by
  unfold decrypt
  rw [hp, error_bind]

/-- With the sub-keys of round 0 inside the key, `encrypt` reaches the `strcpy` of round 0,
which runs past the end of both buffers. -/
theorem encrypt_pastEnd (p key b : List CChar) (hp : strncpy p 27 = .ok b)
    (hk : 45 ≤ key.length) : encrypt p key = .error (.strcpyPastEnd 0) := by
  unfold encrypt
  rw [hp, ok_bind, range_split (show 0 < 56 by omega), List.range_zero, List.nil_append]
  apply foldlM_error
  exact encryptBody_pastEnd key b 0 (by omega)

/-- With a key shorter than 45 characters `encrypt` reads past the end of the key while
it builds the sub-keys of round 0. -/
theorem encrypt_key_short (p key b : List CChar) (hp : strncpy p 27 = .ok b)
    (hk : key.length < 45) : encrypt p key = .error (.keyReadPastEnd 0 key.length) := by
  unfold encrypt
  rw [hp, ok_bind, range_split (show 0 < 56 by omega), List.range_zero, List.nil_append]
  apply foldlM_error
  exact encryptBody_error key b 0 (by omega) (by omega)

/-- Under a key of at least 2520 characters `'0'`/`'1'`, `decrypt` reaches the `strcpy`
of round 55, its first round, which runs past the end of both buffers. -/
theorem decrypt_pastEnd (p key b : List CChar) (hp : strncpy p 27 = .ok b)
    (hlen : 2520 ≤ key.length) (hk : IsBits key) :
    decrypt p key = .error (.strcpyPastEnd 55) := by
  unfold decrypt
  rw [hp, ok_bind, List.range_succ, List.reverse_append]
  apply foldlM_error
  exact decryptBody_pastEnd key b 55 (by omega) hk

/-- With a key shorter than 2520 characters `decrypt` reads past the end of the key
while it builds the sub-keys of round 55, its first round. -/
theorem decrypt_key_short (p key b : List CChar) (hp : strncpy p 27 = .ok b)
    (hk : key.length < 2520) :
    decrypt p key = .error (.keyReadPastEnd 55 (max key.length 2475)) := by
  unfold decrypt
  rw [hp, ok_bind, List.range_succ, List.reverse_append]
  apply foldlM_error
  exact decryptBody_error key b 55 (by omega)

/-! ## The claims -/

/-- Claim C1, which the code breaks. For every block `B` and every extended key `K` of at
least 2520 characters `'0'`/`'1'`, the 56 rounds of `roundDec` undo the 56 rounds of
`roundEnc`, but `encrypt B K` returns no ciphertext: the `strcpy` of round 0 (line 284)
finds no terminator in the 27 characters `roundEnc` returned and runs past the end of both
buffers. `decrypt` of any block stops the same way in round 55 (line 324). So no `C`
satisfies `encrypt B K = C` and `decrypt C K = B`. -/
theorem full_invertibility_broken (B K : List CChar) (hB : IsBlock B)
    (hlen : 2520 ≤ K.length) (hK : IsBits K) :
    specDecryptRounds K 56 (specEncryptRounds K 56 B) = B ∧
      encrypt B K = .error (.strcpyPastEnd 0) ∧
      (∀ C, IsBlock C → decrypt C K = .error (.strcpyPastEnd 55)) ∧
      ¬ ∃ C, encrypt B K = .ok C ∧ decrypt C K = .ok B := by
  have he := encrypt_pastEnd B K B (strncpy_block hB) (by omega)
  refine ⟨specDecryptRounds_specEncryptRounds hK 56 (by omega) hB, he,
    fun C hC => decrypt_pastEnd C K C (strncpy_block hC) hlen hK, ?_⟩
  rintro ⟨C, h1, _⟩
  rw [he] at h1
  exact Except.noConfusion h1

/-- Claim C1 at the all-ones block under the key of 2520 ones. -/
theorem full_invertibility_broken_witness :
    IsBlock (List.replicate 27 49) ∧ 2520 ≤ (List.replicate 2520 (49 : CChar)).length ∧
      IsBits (List.replicate 2520 49) ∧
      encrypt (List.replicate 27 49) (List.replicate 2520 49) = .error (.strcpyPastEnd 0) :=
  ⟨by decide, (List.length_replicate _ _).ge, isBits_replicate _ _ (Or.inr rfl),
    (full_invertibility_broken _ _ (by decide) (List.length_replicate _ _).ge
      (isBits_replicate _ _ (Or.inr rfl))).2.1⟩

/-- Claim C2. For every block `B`, every BigKey `K27` of 27 characters `'0'`/`'1'` and
every SmallKey `K18`, `roundDec (roundEnc B K27 K18) K27 K18 = B`. No hypothesis on the
SmallKey is needed, so the keys of 18 characters `'0'`/`'1'` are covered. -/
theorem round_invertibility (B K27 K18 : List CChar) (hB : IsBlock B)
    (h27 : K27.length = 27 ∧ IsBits K27) : roundDec (roundEnc B K27 K18) K27 K18 = B :=
  roundDec_roundEnc_aux hB h27 K18

/-- Claim C2 at the all-zero block with the all-ones keys. -/
theorem round_invertibility_witness :
    IsBlock (List.replicate 27 48) ∧
      ((List.replicate 27 (49 : CChar)).length = 27 ∧ IsBits (List.replicate 27 49)) ∧
      roundDec (roundEnc (List.replicate 27 48) (List.replicate 27 49) (List.replicate 18 49))
        (List.replicate 27 49) (List.replicate 18 49) = List.replicate 27 48 :=
  ⟨by decide, by decide, round_invertibility _ _ _ (by decide) (by decide)⟩

/-- Claim C3, refuted as stated: with the all-zero block and a key of exactly 2519
characters neither function rejects the call. `decrypt` reads `key[2519]`, one past the
end of the key, while it builds the sub-keys of round 55, its first round. `encrypt`
builds the sub-keys of round 0, runs `roundEnc` and stops in the `strcpy` of round 0, as
it does with a key of 2520 characters. -/
theorem key_2519_not_rejected :
    decrypt (List.replicate 27 48) (List.replicate 2519 48) =
        .error (.keyReadPastEnd 55 2519) ∧
      encrypt (List.replicate 27 48) (List.replicate 2519 48) = .error (.strcpyPastEnd 0) ∧
      encrypt (List.replicate 27 48) (List.replicate 2520 48) = .error (.strcpyPastEnd 0) := by
  have hb : IsBlock (List.replicate 27 48) := by decide
  have h1 := decrypt_key_short _ (List.replicate 2519 48) _ (strncpy_block hb)
    (by rw [List.length_replicate]; omega)
  rw [List.length_replicate] at h1
  exact ⟨h1,
    encrypt_pastEnd _ _ _ (strncpy_block hb) (by rw [List.length_replicate]; omega),
    encrypt_pastEnd _ _ _ (strncpy_block hb) (by rw [List.length_replicate]; omega)⟩

/-- Claim C3, amended. For every block `B` and every extended key `K` shorter than 2520
characters, `encrypt` and `decrypt` perform no check of the key length. `decrypt` reads
`key[max K.length 2475]`, past the end of the key, while it builds the sub-keys of round
55, before any round has run. `encrypt` builds the sub-keys of round 0 unchecked: with a
key shorter than 45 characters it reads `key[K.length]`, past the end of the key, and
with a longer key it is not stopped at the boundary and runs round 0 up to its
`strcpy`. -/
theorem short_key_unchecked (B K : List CChar) (hB : IsBlock B) (hK : K.length < 2520) :
    decrypt B K = .error (.keyReadPastEnd 55 (max K.length 2475)) ∧
      (K.length < 45 → encrypt B K = .error (.keyReadPastEnd 0 K.length)) ∧
      (45 ≤ K.length → encrypt B K = .error (.strcpyPastEnd 0)) :=
  ⟨decrypt_key_short B K B (strncpy_block hB) hK,
    fun h => encrypt_key_short B K B (strncpy_block hB) h,
    fun h => encrypt_pastEnd B K B (strncpy_block hB) h⟩

/-- Claim C3, amended, at the all-ones block with a key of 30 characters: both functions
read past the end of the key, `decrypt` at index 2475 and `encrypt` at index 30. -/
theorem short_key_unchecked_witness :
    IsBlock (List.replicate 27 49) ∧ (List.replicate 30 (48 : CChar)).length < 2520 ∧
      decrypt (List.replicate 27 49) (List.replicate 30 48) =
        .error (.keyReadPastEnd 55 (max (List.replicate 30 (48 : CChar)).length 2475)) ∧
      ((List.replicate 30 (48 : CChar)).length < 45 →
        encrypt (List.replicate 27 49) (List.replicate 30 48) =
          .error (.keyReadPastEnd 0 (List.replicate 30 (48 : CChar)).length)) :=
  ⟨by decide, (by rw [List.length_replicate]; omega),
    (short_key_unchecked _ _ (by decide) (by rw [List.length_replicate]; omega)).1,
    (short_key_unchecked _ _ (by decide) (by rw [List.length_replicate]; omega)).2.1⟩

/-- Claim C4, refuted as stated: under the key of 2520 zeros, a buffer of 28 characters
and a 27-character buffer that starts with the character `'2'` both pass `strncpy`, the
first cut to 27 characters, and `encrypt` and `decrypt` run on them into the `strcpy` of
their first round, exactly as on the well-formed all-zero block. -/
theorem malformed_block_not_rejected :
    (strncpy (List.replicate 28 48) 27 = .ok (List.replicate 27 48) ∧
        encrypt (List.replicate 28 48) (List.replicate 2520 48) = .error (.strcpyPastEnd 0) ∧
        decrypt (List.replicate 28 48) (List.replicate 2520 48) =
          .error (.strcpyPastEnd 55)) ∧
      (strncpy blockWithTwo 27 = .ok blockWithTwo ∧
        encrypt blockWithTwo (List.replicate 2520 48) = .error (.strcpyPastEnd 0) ∧
        decrypt blockWithTwo (List.replicate 2520 48) = .error (.strcpyPastEnd 55)) ∧
      encrypt (List.replicate 27 48) (List.replicate 2520 48) = .error (.strcpyPastEnd 0) ∧
      decrypt (List.replicate 27 48) (List.replicate 2520 48) = .error (.strcpyPastEnd 55) := by
  have hk : IsBits (List.replicate 2520 48) := isBits_replicate _ _ (Or.inl rfl)
  have hlen : 2520 ≤ (List.replicate 2520 (48 : CChar)).length := (List.length_replicate _ _).ge
  have h28 : strncpy (List.replicate 28 48) 27 = .ok (List.replicate 27 48) := by rfl
  have h2 : strncpy blockWithTwo 27 = .ok blockWithTwo := by rfl
  have h0 : strncpy (List.replicate 27 48) 27 = .ok (List.replicate 27 48) := by rfl
  exact ⟨⟨h28, encrypt_pastEnd _ _ _ h28 (by omega), decrypt_pastEnd _ _ _ h28 hlen hk⟩,
    ⟨h2, encrypt_pastEnd _ _ _ h2 (by omega), decrypt_pastEnd _ _ _ h2 hlen hk⟩,
    encrypt_pastEnd _ _ _ h0 (by omega), decrypt_pastEnd _ _ _ h0 hlen hk⟩

/-- Claim C4, amended. `encrypt` and `decrypt` do not validate the block; it only passes
through `strncpy(bitString, block, 27)`. Under every key of at least 2520 characters
`'0'`/`'1'`: a buffer of at least 27 characters whose first 27 hold no terminator is cut
to its first 27 characters; a buffer whose first terminator is at an index `m < 27` is
taken up to the terminator and filled with terminators; in both cases, whatever the
characters are, each function enters its round loop and runs its first round up to the
`strcpy`. A buffer shorter than 27 characters without terminator is read past its end. -/
theorem block_unchecked (P K : List CChar) (hlen : 2520 ≤ K.length) (hK : IsBits K) :
    (27 ≤ P.length → (∀ c ∈ P.take 27, c ≠ 0) →
        strncpy P 27 = .ok (P.take 27) ∧ encrypt P K = .error (.strcpyPastEnd 0) ∧
          decrypt P K = .error (.strcpyPastEnd 55)) ∧
      (∀ m, m < 27 → m < P.length → rd P m = 0 → (∀ c ∈ P.take m, c ≠ 0) →
        strncpy P 27 = .ok (P.take m ++ List.replicate (27 - m) 0) ∧
          encrypt P K = .error (.strcpyPastEnd 0) ∧
          decrypt P K = .error (.strcpyPastEnd 55)) ∧
      (P.length < 27 → (∀ c ∈ P, c ≠ 0) →
        strncpy P 27 = .error .blockReadPastEnd ∧ encrypt P K = .error .blockReadPastEnd ∧
          decrypt P K = .error .blockReadPastEnd) := by
  refine ⟨fun h1 h2 => ?_, fun m h1 h2 h3 h4 => ?_, fun h1 h2 => ?_⟩
  · have h := strncpy_take P 27 h1 h2
    exact ⟨h, encrypt_pastEnd P K _ h (by omega), decrypt_pastEnd P K _ h hlen hK⟩
  · have h := strncpy_pad P 27 m h1 h2 h3 h4
    exact ⟨h, encrypt_pastEnd P K _ h (by omega), decrypt_pastEnd P K _ h hlen hK⟩
  · have h := strncpy_short P 27 h1 h2
    exact ⟨h, encrypt_strncpy_error P K _ h, decrypt_strncpy_error P K _ h⟩

/-- Claim C4, amended, under the key of 2520 ones: a buffer of 30 characters `'7'` is cut
to 27 characters, and a buffer of 26 characters `'7'` is read past its end. -/
theorem block_unchecked_witness :
    2520 ≤ (List.replicate 2520 (49 : CChar)).length ∧ IsBits (List.replicate 2520 49) ∧
      (27 ≤ (List.replicate 30 (55 : CChar)).length →
        (∀ c ∈ (List.replicate 30 (55 : CChar)).take 27, c ≠ 0) →
        strncpy (List.replicate 30 55) 27 = .ok ((List.replicate 30 55).take 27) ∧
          encrypt (List.replicate 30 55) (List.replicate 2520 49) =
            .error (.strcpyPastEnd 0) ∧
          decrypt (List.replicate 30 55) (List.replicate 2520 49) =
            .error (.strcpyPastEnd 55)) ∧
      ((List.replicate 26 (55 : CChar)).length < 27 →
        (∀ c ∈ List.replicate 26 (55 : CChar), c ≠ 0) →
        strncpy (List.replicate 26 55) 27 = .error .blockReadPastEnd ∧
          encrypt (List.replicate 26 55) (List.replicate 2520 49) =
            .error .blockReadPastEnd ∧
          decrypt (List.replicate 26 55) (List.replicate 2520 49) =
            .error .blockReadPastEnd) :=
  ⟨(List.length_replicate _ _).ge, isBits_replicate _ _ (Or.inr rfl),
    (block_unchecked (List.replicate 30 55) _ (List.length_replicate _ _).ge
      (isBits_replicate _ _ (Or.inr rfl))).1,
    (block_unchecked (List.replicate 26 55) _ (List.length_replicate _ _).ge
      (isBits_replicate _ _ (Or.inr rfl))).2.2⟩

/-- Claim C5, which the code breaks. For every block `P` and every key `K` of at least
2520 characters, round `i` of `encrypt` does apply `roundEnc` to the current block with
BigKey `K[45 i .. 45 i + 27)` and SmallKey `K[45 i + 27 .. 45 i + 45)`, but it hands the
result to `strcpy` (line 284), which finds no terminator in its 27 characters and runs
past the end of both buffers: `encrypt P K` stops in round 0 and does not return the
result of the 56 rounds. -/
theorem encrypt_rounds_broken (P K : List CChar) (hP : IsBlock P) (hlen : 2520 ≤ K.length) :
    (∀ b i, i < 56 →
        encryptBody K b i =
          (strcpy (roundEnc b (specBigKey K i) (specSmallKey K i)) i >>= fun nb =>
            pure (copyBack b nb))) ∧
      encrypt P K = .error (.strcpyPastEnd 0) ∧
      encrypt P K ≠ .ok (specEncryptRounds K 56 P) := by
  have he := encrypt_pastEnd P K P (strncpy_block hP) (by omega)
  refine ⟨fun b i hi => encryptBody_eq K b i (by omega), he, fun h => ?_⟩
  rw [he] at h
  exact Except.noConfusion h

/-- Claim C5 at the block `0101...0` under a key of 2600 zeros. -/
theorem encrypt_rounds_broken_witness :
    IsBlock alternatingBlock ∧ 2520 ≤ (List.replicate 2600 (48 : CChar)).length ∧
      encrypt alternatingBlock (List.replicate 2600 48) = .error (.strcpyPastEnd 0) ∧
      encrypt alternatingBlock (List.replicate 2600 48) ≠
        .ok (specEncryptRounds (List.replicate 2600 48) 56 alternatingBlock) :=
  ⟨by decide, (by rw [List.length_replicate]; omega),
    (encrypt_rounds_broken _ _ (by decide) (by rw [List.length_replicate]; omega)).2⟩

/-- Claim C6, which the code breaks. For every block `C` and every key `K` of at least
2520 characters `'0'`/`'1'`, round `i` of `decrypt` does apply `roundDec` to the current
block with BigKey `K[45 i .. 45 i + 27)` and SmallKey `K[45 i + 27 .. 45 i + 45)`, and
the first round is round 55, but it hands the result to `strcpy` (line 324), which finds
no terminator in its 27 characters and runs past the end of both buffers: `decrypt C K`
stops in round 55 and does not return the result of the 56 rounds. -/
theorem decrypt_rounds_broken (C K : List CChar) (hC : IsBlock C) (hlen : 2520 ≤ K.length)
    (hK : IsBits K) :
    (∀ b i, i < 56 →
        decryptBody K b i =
          (strcpy (roundDec b (specBigKey K i) (specSmallKey K i)) i >>= fun nb =>
            pure (copyBack b nb))) ∧
      decrypt C K = .error (.strcpyPastEnd 55) ∧
      decrypt C K ≠ .ok (specDecryptRounds K 56 C) := by
  have hd := decrypt_pastEnd C K C (strncpy_block hC) hlen hK
  refine ⟨fun b i hi => decryptBody_eq K b i (by omega), hd, fun h => ?_⟩
  rw [hd] at h
  exact Except.noConfusion h

/-- Claim C6 at the block `0101...0` under a key of 2600 zeros. -/
theorem decrypt_rounds_broken_witness :
    IsBlock alternatingBlock ∧ 2520 ≤ (List.replicate 2600 (48 : CChar)).length ∧
      IsBits (List.replicate 2600 48) ∧
      decrypt alternatingBlock (List.replicate 2600 48) = .error (.strcpyPastEnd 55) ∧
      decrypt alternatingBlock (List.replicate 2600 48) ≠
        .ok (specDecryptRounds (List.replicate 2600 48) 56 alternatingBlock) :=
  ⟨by decide, (by rw [List.length_replicate]; omega), isBits_replicate _ _ (Or.inl rfl),
    (decrypt_rounds_broken _ _ (by decide) (by rw [List.length_replicate]; omega)
      (isBits_replicate _ _ (Or.inl rfl))).2⟩

/-- Claim C8, which the code breaks. One round of `roundEnc` and one round of `roundDec`
map the all-zero block to itself under the all-zero sub-keys, but neither `encrypt` nor
`decrypt` of the all-zero block under the key of 2520 zeros returns a block: each stops
in the `strcpy` of its first round, which runs past the end of both buffers. -/
theorem zero_block_zero_key_broken :
    roundEnc (List.replicate 27 48) (List.replicate 27 48) (List.replicate 18 48) =
        List.replicate 27 48 ∧
      roundDec (List.replicate 27 48) (List.replicate 27 48) (List.replicate 18 48) =
        List.replicate 27 48 ∧
      encrypt (List.replicate 27 48) (List.replicate 2520 48) = .error (.strcpyPastEnd 0) ∧
      decrypt (List.replicate 27 48) (List.replicate 2520 48) =
        .error (.strcpyPastEnd 55) := by
  have hb : IsBlock (List.replicate 27 48) := by decide
  exact ⟨by decide, by decide,
    encrypt_pastEnd _ _ _ (strncpy_block hb) (by rw [List.length_replicate]; omega),
    decrypt_pastEnd _ _ _ (strncpy_block hb) (List.length_replicate _ _).ge
      (isBits_replicate _ _ (Or.inl rfl))⟩

/-- Claim C9. The index map `i ↦ (3 * i) % 26` is injective on the positions 0..25 and
reaches each of them, the forward step of `roundEnc` writes `X[i]` at position
`(3 * i) % 26` and `X[26]` at position 26, and for every buffer `X` of 27 characters the
inverse step of `roundDec` undoes the forward step and the forward step undoes the inverse
step. -/
theorem fixedPerm_bijection (X : List CChar) (hX : X.length = 27) :
    (∀ i j, i < 26 → j < 26 → (3 * i) % 26 = (3 * j) % 26 → i = j) ∧
      (∀ p, p < 26 → ∃ i, i < 26 ∧ (3 * i) % 26 = p) ∧
      (∀ i, i < 26 → rd (fixedPermEnc X) ((3 * i) % 26) = rd X i) ∧
      rd (fixedPermEnc X) 26 = rd X 26 ∧
      fixedPermDec (fixedPermEnc X) = X ∧ fixedPermEnc (fixedPermDec X) = X :=
  ⟨fun i j hi hj h => by omega, fun p hp => ⟨(9 * p) % 26, by omega, by omega⟩,
    fun i hi => rd_fixedPermEnc X i hi, rd_fixedPermEnc_last X,
    fixedPermDec_fixedPermEnc hX, fixedPermEnc_fixedPermDec hX⟩

/-- Claim C9 at the block `0101...0`: both compositions return it. -/
theorem fixedPerm_bijection_witness :
    alternatingBlock.length = 27 ∧
      fixedPermDec (fixedPermEnc alternatingBlock) = alternatingBlock ∧
      fixedPermEnc (fixedPermDec alternatingBlock) = alternatingBlock :=
  ⟨rfl, (fixedPerm_bijection alternatingBlock rfl).2.2.2.2⟩

/-- Claim C10. `keyedPerm` is an involution: for every buffer `B` of 27 characters and
every SmallKey `K18`, `keyedPerm (keyedPerm B K18) K18 = B`; group `g` of the result of
`keyedPerm` is the ordering `kpChars` selects for the key characters `2 g`, `2 g + 1`, and
applying a selected ordering twice returns the original group, for all selector and group
characters. -/
theorem keyedPerm_involution (B K18 : List CChar) (hB : B.length = 27) :
    keyedPerm (keyedPerm B K18) K18 = B ∧
      (∀ g, g < 9 →
        (rd (keyedPerm B K18) (3 * g), rd (keyedPerm B K18) (3 * g + 1),
            rd (keyedPerm B K18) (3 * g + 2)) =
          kpChars (rd K18 (2 * g)) (rd K18 (2 * g + 1)) (rd B (3 * g)) (rd B (3 * g + 1))
            (rd B (3 * g + 2))) ∧
      ∀ a0 a1 c0 c1 c2 : CChar,
        kpChars a0 a1 (kpChars a0 a1 c0 c1 c2).1 (kpChars a0 a1 c0 c1 c2).2.1
          (kpChars a0 a1 c0 c1 c2).2.2 = (c0, c1, c2) := by
  refine ⟨keyedPerm_keyedPerm hB K18, fun g hg => ?_, kpChars_kpChars⟩
  obtain ⟨e0, e1, e2⟩ := rd_keyedPerm B K18 g hg
  rw [e0, e1, e2]

/-- Claim C10 at the all-zero block with the all-ones SmallKey. -/
theorem keyedPerm_involution_witness :
    (List.replicate 27 (48 : CChar)).length = 27 ∧
      keyedPerm (keyedPerm (List.replicate 27 48) (List.replicate 18 49)) (List.replicate 18 49) =
        List.replicate 27 48 :=
  ⟨List.length_replicate _ _, (keyedPerm_involution _ _ (List.length_replicate _ _)).1⟩

/-- Claim C11. The substitution loop of `roundEnc` and the substitution loop of `roundDec`
are mutual inverses: on the integers 0..7 they compute the forward and the inverse table
of the specification, `inverseValue (forwardValue v) = v` and
`forwardValue (inverseValue v) = v` for every `v` in 0..7, and on every block each loop
undoes the other. -/
theorem substitution_mutual_inverse (x : List CChar) (hx : IsBlock x) :
    (∀ v, v < 8 →
      forwardValue v = specForwardTable.getD v 0 ∧ inverseValue v = specInverseTable.getD v 0 ∧
      inverseValue (forwardValue v) = v ∧ forwardValue (inverseValue v) = v) ∧
    substDec (substEnc x) = x ∧ substEnc (substDec x) = x :=
  ⟨value_tables, substDec_substEnc hx, substEnc_substDec hx⟩

/-- Claim C11 at the block `0101...0`. -/
theorem substitution_mutual_inverse_witness :
    IsBlock alternatingBlock ∧ substDec (substEnc alternatingBlock) = alternatingBlock ∧
      substEnc (substDec alternatingBlock) = alternatingBlock :=
  ⟨by decide, (substitution_mutual_inverse alternatingBlock (by decide)).2⟩

/-- Claim C12. For every block `B` and every key `K` of 27 characters `'0'`/`'1'`, the
character of `XOR B K` at each position is the exclusive-or of the bits of `B` and `K` at
that position, `XOR B K` is a block, and `XOR (XOR B K) K = B`. -/
theorem xor_bitwise_self_inverse (B K : List CChar) (hB : IsBlock B)
    (hK : K.length = 27 ∧ IsBits K) :
    (∀ i, i < 27 → rd (XOR B K) i = charOf (Bool.xor (bitOf (rd B i)) (bitOf (rd K i)))) ∧
      IsBlock (XOR B K) ∧ XOR (XOR B K) K = B :=
  ⟨fun i hi => by
      rw [rd_XOR B K i hi]
      exact xorChar_eq_xor (rd_of_isBlock hB hi) (rd_of_isBlock hK hi),
    isBlock_XOR hB hK, XOR_XOR hB hK⟩

/-- Claim C12 at the block `0101...0` with the all-ones key. -/
theorem xor_bitwise_self_inverse_witness :
    IsBlock alternatingBlock ∧
      ((List.replicate 27 (49 : CChar)).length = 27 ∧ IsBits (List.replicate 27 49)) ∧
      XOR (XOR alternatingBlock (List.replicate 27 49)) (List.replicate 27 49) =
        alternatingBlock :=
  ⟨by decide, by decide, (xor_bitwise_self_inverse _ _ (by decide) (by decide)).2.2⟩

/-- Claim C13. For every block `B`, every BigKey `K27` of 27 characters `'0'`/`'1'` and
every SmallKey `K18`, `roundEnc B K27 K18` is the forward substitution table applied to
`keyedPerm` of the forward fixed permutation of `XOR B K27`, in this order; the forward
fixed permutation moves the bit of position `i`, `i < 26`, to position `(3 * i) % 26` and
leaves position 26 in place. -/
theorem roundEnc_stage_order (B K27 K18 : List CChar) (hB : IsBlock B)
    (h27 : K27.length = 27 ∧ IsBits K27) :
    roundEnc B K27 K18 =
        specSubst specForwardTable (keyedPerm (specFixedPermForward (XOR B K27)) K18) ∧
      ∀ X : List CChar,
        (∀ i, i < 26 → rd (specFixedPermForward X) ((3 * i) % 26) = rd X i) ∧
          rd (specFixedPermForward X) 26 = rd X 26 := by
  refine ⟨?_, fun X => ⟨fun i hi => ?_, ?_⟩⟩
  · have h1 : IsBlock (keyedPerm (fixedPermEnc (XOR B K27)) K18) :=
      isBlock_keyedPerm (isBlock_fixedPermEnc (isBlock_XOR hB h27)) K18
    simp only [roundEnc]
    rw [substEnc_eq_spec h1, fixedPermEnc_eq_spec]
  · rw [← fixedPermEnc_eq_spec]
    exact rd_fixedPermEnc X i hi
  · rw [← fixedPermEnc_eq_spec]
    exact rd_fixedPermEnc_last X

/-- Claim C13 at the block `0101...0` with the all-ones keys. -/
theorem roundEnc_stage_order_witness :
    IsBlock alternatingBlock ∧
      ((List.replicate 27 (49 : CChar)).length = 27 ∧ IsBits (List.replicate 27 49)) ∧
      roundEnc alternatingBlock (List.replicate 27 49) (List.replicate 18 49) =
        specSubst specForwardTable
          (keyedPerm (specFixedPermForward (XOR alternatingBlock (List.replicate 27 49)))
            (List.replicate 18 49)) :=
  ⟨by decide, by decide, (roundEnc_stage_order _ _ _ (by decide) (by decide)).1⟩

/-- Claim C14. For every block `C`, every BigKey `K27` and every SmallKey `K18`,
`roundDec C K27 K18` is `XOR` with `K27` of the inverse fixed permutation of `keyedPerm`
of the inverse substitution table applied to `C`, in this order; the inverse fixed
permutation places at position `i`, `i < 26`, the bit of position `(3 * i) % 26` and
leaves position 26 in place. -/
theorem roundDec_stage_order (C K27 K18 : List CChar) (hC : IsBlock C) :
    roundDec C K27 K18 =
        XOR (specFixedPermInverse (keyedPerm (specSubst specInverseTable C) K18)) K27 ∧
      ∀ X : List CChar,
        (∀ i, i < 26 → rd (specFixedPermInverse X) i = rd X ((3 * i) % 26)) ∧
          rd (specFixedPermInverse X) 26 = rd X 26 := by
  refine ⟨?_, fun X => ⟨fun i hi => ?_, ?_⟩⟩
  · simp only [roundDec]
    rw [substDec_eq_spec hC, fixedPermDec_eq_spec]
  · rw [← fixedPermDec_eq_spec]
    exact rd_fixedPermDec X i hi
  · rw [← fixedPermDec_eq_spec]
    exact rd_fixedPermDec_last X

/-- Claim C14 at the block `0101...0` with the all-ones keys. -/
theorem roundDec_stage_order_witness :
    IsBlock alternatingBlock ∧
      roundDec alternatingBlock (List.replicate 27 49) (List.replicate 18 49) =
        XOR (specFixedPermInverse
          (keyedPerm (specSubst specInverseTable alternatingBlock) (List.replicate 18 49)))
          (List.replicate 27 49) :=
  ⟨by decide, (roundDec_stage_order _ _ _ (by decide)).1⟩

/-- Claim C15. For every group `g` in 0..8, with `(c0, c1, c2)` the characters of the
input at positions `3 g`, `3 g + 1`, `3 g + 2`, `keyedPerm` writes at these positions
`(c0, c1, c2)` when the key characters `2 g`, `2 g + 1` are `00`, `(c1, c0, c2)` when they
are `01`, `(c0, c2, c1)` when they are `10` and `(c2, c1, c0)` when they are `11`; and
the group of the result is the same for any other input and key with the same three
characters in group `g` and the same two selector characters. No hypothesis on the block
or the key is needed, so the blocks and the SmallKeys of 18 characters `'0'`/`'1'`, for
which the four cases are all the cases, are covered. -/
theorem keyedPerm_orderings (B K18 : List CChar) (g : Nat) (hg : g < 9) :
    (rd K18 (2 * g) = 48 → rd K18 (2 * g + 1) = 48 →
        (rd (keyedPerm B K18) (3 * g), rd (keyedPerm B K18) (3 * g + 1),
            rd (keyedPerm B K18) (3 * g + 2)) =
          (rd B (3 * g), rd B (3 * g + 1), rd B (3 * g + 2))) ∧
      (rd K18 (2 * g) = 48 → rd K18 (2 * g + 1) = 49 →
        (rd (keyedPerm B K18) (3 * g), rd (keyedPerm B K18) (3 * g + 1),
            rd (keyedPerm B K18) (3 * g + 2)) =
          (rd B (3 * g + 1), rd B (3 * g), rd B (3 * g + 2))) ∧
      (rd K18 (2 * g) = 49 → rd K18 (2 * g + 1) = 48 →
        (rd (keyedPerm B K18) (3 * g), rd (keyedPerm B K18) (3 * g + 1),
            rd (keyedPerm B K18) (3 * g + 2)) =
          (rd B (3 * g), rd B (3 * g + 2), rd B (3 * g + 1))) ∧
      (rd K18 (2 * g) = 49 → rd K18 (2 * g + 1) = 49 →
        (rd (keyedPerm B K18) (3 * g), rd (keyedPerm B K18) (3 * g + 1),
            rd (keyedPerm B K18) (3 * g + 2)) =
          (rd B (3 * g + 2), rd B (3 * g + 1), rd B (3 * g))) ∧
      ∀ B2 K2 : List CChar,
        rd B2 (3 * g) = rd B (3 * g) → rd B2 (3 * g + 1) = rd B (3 * g + 1) →
        rd B2 (3 * g + 2) = rd B (3 * g + 2) → rd K2 (2 * g) = rd K18 (2 * g) →
        rd K2 (2 * g + 1) = rd K18 (2 * g + 1) →
        (rd (keyedPerm B2 K2) (3 * g), rd (keyedPerm B2 K2) (3 * g + 1),
            rd (keyedPerm B2 K2) (3 * g + 2)) =
          (rd (keyedPerm B K18) (3 * g), rd (keyedPerm B K18) (3 * g + 1),
            rd (keyedPerm B K18) (3 * g + 2)) := by
  obtain ⟨e0, e1, e2⟩ := rd_keyedPerm B K18 g hg
  refine ⟨fun h0 h1 => ?_, fun h0 h1 => ?_, fun h0 h1 => ?_, fun h0 h1 => ?_,
    fun B2 K2 b0 b1 b2 k0 k1 => ?_⟩
  · rw [e0, e1, e2, h0, h1]; rfl
  · rw [e0, e1, e2, h0, h1]; rfl
  · rw [e0, e1, e2, h0, h1]; rfl
  · rw [e0, e1, e2, h0, h1]; rfl
  · obtain ⟨f0, f1, f2⟩ := rd_keyedPerm B2 K2 g hg
    rw [e0, e1, e2, f0, f1, f2, b0, b1, b2, k0, k1]

/-- Claim C15 at group 4 of the block `0101...0` with the all-ones SmallKey. -/
theorem keyedPerm_orderings_witness :
    4 < 9 ∧
      (rd (List.replicate 18 49) (2 * 4) = 49 → rd (List.replicate 18 49) (2 * 4 + 1) = 49 →
        (rd (keyedPerm alternatingBlock (List.replicate 18 49)) (3 * 4),
            rd (keyedPerm alternatingBlock (List.replicate 18 49)) (3 * 4 + 1),
            rd (keyedPerm alternatingBlock (List.replicate 18 49)) (3 * 4 + 2)) =
          (rd alternatingBlock (3 * 4 + 2), rd alternatingBlock (3 * 4 + 1),
            rd alternatingBlock (3 * 4))) :=
  ⟨by decide,
    (keyedPerm_orderings alternatingBlock (List.replicate 18 49) 4 (by decide)).2.2.2.1⟩

/-- Claim C16. Read as integers 0..7 with the first bit most significant, the
substitution loop of `roundEnc` maps 0, 1, 2, 3, 4, 5, 6, 7 to 0, 1, 3, 6, 7, 4, 5, 2; and
for every block and every group `g` in 0..8 the three characters it writes for group `g`
are the image, most significant bit first, of the integer of group `g` of its input. -/
theorem substitution_forward_values (x : List CChar) (hx : IsBlock x) (g : Nat) (hg : g < 9) :
    (List.range 8).map forwardValue = [0, 1, 3, 6, 7, 4, 5, 2] ∧
      specValue (rd x (3 * g)) (rd x (3 * g + 1)) (rd x (3 * g + 2)) < 8 ∧
      (rd (substEnc x) (3 * g), rd (substEnc x) (3 * g + 1), rd (substEnc x) (3 * g + 2)) =
        specGroup (forwardValue
          (specValue (rd x (3 * g)) (rd x (3 * g + 1)) (rd x (3 * g + 2)))) := by
  have hv : specValue (rd x (3 * g)) (rd x (3 * g + 1)) (rd x (3 * g + 2)) < 8 := by
    rcases rd_of_isBlock hx (show 3 * g < 27 by omega) with h0 | h0 <;>
    rcases rd_of_isBlock hx (show 3 * g + 1 < 27 by omega) with h1 | h1 <;>
    rcases rd_of_isBlock hx (show 3 * g + 2 < 27 by omega) with h2 | h2 <;>
    rw [h0, h1, h2] <;> decide
  refine ⟨by decide, hv, ?_⟩
  obtain ⟨e0, e1, e2⟩ := rd_substEnc x g hg
  rw [e0, e1, e2, groupW_eq,
    substEncChars_eq_table (rd_of_isBlock hx (by omega)) (rd_of_isBlock hx (by omega))
      (rd_of_isBlock hx (by omega)), (value_tables _ hv).1]

/-- Claim C16 at group 2 of the block `0101...0`. -/
theorem substitution_forward_values_witness :
    IsBlock alternatingBlock ∧ 2 < 9 ∧
      (rd (substEnc alternatingBlock) (3 * 2), rd (substEnc alternatingBlock) (3 * 2 + 1),
          rd (substEnc alternatingBlock) (3 * 2 + 2)) =
        specGroup (forwardValue (specValue (rd alternatingBlock (3 * 2))
          (rd alternatingBlock (3 * 2 + 1)) (rd alternatingBlock (3 * 2 + 2)))) :=
  ⟨by decide, by decide,
    (substitution_forward_values alternatingBlock (by decide) 2 (by decide)).2.2⟩

/-- Claim C17, which the code breaks for `encrypt` and `decrypt`. For every block `B`,
every BigKey `K27` of 27 characters `'0'`/`'1'`, every SmallKey `K18` and every extended
key `K` of at least 2520 characters `'0'`/`'1'`, the results of `XOR`, `keyedPerm`,
`roundEnc` and `roundDec` are blocks of 27 characters `'0'`/`'1'`, but `encrypt` and
`decrypt` return no block: each stops in the `strcpy` of its first round, which runs past
the end of both buffers. -/
theorem wellformed_stages_only (B K27 K18 K : List CChar) (hB : IsBlock B)
    (h27 : K27.length = 27 ∧ IsBits K27) (hlen : 2520 ≤ K.length) (hK : IsBits K) :
    IsBlock (XOR B K27) ∧ IsBlock (keyedPerm B K18) ∧ IsBlock (roundEnc B K27 K18) ∧
      IsBlock (roundDec B K27 K18) ∧ encrypt B K = .error (.strcpyPastEnd 0) ∧
      decrypt B K = .error (.strcpyPastEnd 55) :=
  ⟨isBlock_XOR hB h27, isBlock_keyedPerm hB K18, isBlock_roundEnc _ _ _,
    isBlock_roundDec B h27 K18, encrypt_pastEnd B K B (strncpy_block hB) (by omega),
    decrypt_pastEnd B K B (strncpy_block hB) hlen hK⟩

/-- Claim C17 at the block `0101...0` with all-ones round keys and the key of 2520
zeros. -/
theorem wellformed_stages_only_witness :
    IsBlock alternatingBlock ∧
      ((List.replicate 27 (49 : CChar)).length = 27 ∧ IsBits (List.replicate 27 49)) ∧
      2520 ≤ (List.replicate 2520 (48 : CChar)).length ∧ IsBits (List.replicate 2520 48) ∧
      IsBlock (XOR alternatingBlock (List.replicate 27 49)) ∧
      IsBlock (keyedPerm alternatingBlock (List.replicate 18 49)) ∧
      IsBlock (roundEnc alternatingBlock (List.replicate 27 49) (List.replicate 18 49)) ∧
      IsBlock (roundDec alternatingBlock (List.replicate 27 49) (List.replicate 18 49)) ∧
      encrypt alternatingBlock (List.replicate 2520 48) = .error (.strcpyPastEnd 0) ∧
      decrypt alternatingBlock (List.replicate 2520 48) = .error (.strcpyPastEnd 55) :=
  ⟨by decide, by decide, (List.length_replicate _ _).ge, isBits_replicate _ _ (Or.inl rfl),
    wellformed_stages_only _ _ _ _ (by decide) (by decide) (List.length_replicate _ _).ge
      (isBits_replicate _ _ (Or.inl rfl))⟩

/-- Claim C18, which the code breaks for `encrypt` and `decrypt`. For every block `C` and
every extended key `K` of at least 2520 characters `'0'`/`'1'`, the 56 rounds of
`roundEnc` undo the 56 rounds of `roundDec`, and `roundEnc (roundDec C K27 K18) K27 K18 =
C` for every BigKey `K27` of 27 characters `'0'`/`'1'` and every SmallKey `K18`; but
`decrypt C K` returns no block, stopping in the `strcpy` of round 55, and `encrypt` of any
block stops in the `strcpy` of round 0, so no `P` satisfies `decrypt C K = P` and
`encrypt P K = C`. -/
theorem encrypt_after_decrypt_broken (C K : List CChar) (hC : IsBlock C)
    (hlen : 2520 ≤ K.length) (hK : IsBits K) :
    specEncryptRounds K 56 (specDecryptRounds K 56 C) = C ∧
      (∀ K27 K18 : List CChar, K27.length = 27 ∧ IsBits K27 →
        roundEnc (roundDec C K27 K18) K27 K18 = C) ∧
      decrypt C K = .error (.strcpyPastEnd 55) ∧
      (∀ P, IsBlock P → encrypt P K = .error (.strcpyPastEnd 0)) ∧
      ¬ ∃ P, decrypt C K = .ok P ∧ encrypt P K = .ok C := by
  have hd := decrypt_pastEnd C K C (strncpy_block hC) hlen hK
  refine ⟨specEncryptRounds_specDecryptRounds hK 56 (by omega) hC,
    fun K27 K18 h27 => roundEnc_roundDec_aux hC h27 K18, hd,
    fun P hP => encrypt_pastEnd P K P (strncpy_block hP) (by omega), ?_⟩
  rintro ⟨P, h1, _⟩
  rw [hd] at h1
  exact Except.noConfusion h1

/-- Claim C18 at the block `0101...0` under the key of 2520 zeros. -/
theorem encrypt_after_decrypt_broken_witness :
    IsBlock alternatingBlock ∧ 2520 ≤ (List.replicate 2520 (48 : CChar)).length ∧
      IsBits (List.replicate 2520 48) ∧
      decrypt alternatingBlock (List.replicate 2520 48) = .error (.strcpyPastEnd 55) :=
  ⟨by decide, (List.length_replicate _ _).ge, isBits_replicate _ _ (Or.inl rfl),
    (encrypt_after_decrypt_broken _ _ (by decide) (List.length_replicate _ _).ge
      (isBits_replicate _ _ (Or.inl rfl))).2.2.1⟩

/-- Claim C19, refuted as stated: the block `2000...0` holds a character other than `'0'`
and `'1'`, and with the BigKey `2000...0` and the all-zero SmallKey `roundDec` recovers it
from the result of `roundEnc`. -/
theorem non_bit_block_recovered :
    blockWithTwo.length = 27 ∧ ¬ IsBits blockWithTwo ∧
      roundDec (roundEnc blockWithTwo bigKeyWithTwo (List.replicate 18 48)) bigKeyWithTwo
        (List.replicate 18 48) = blockWithTwo := by decide

/-- Claim C19, amended. For every buffer `b` and all keys `k`, `s` of arbitrary characters
the result of `roundEnc` is a block of 27 characters `'0'`/`'1'`, the substitution loop
reading every character other than `'1'` as `'0'`; hence a buffer with a character other
than `'0'` and `'1'` is accepted, and `roundDec` with a BigKey of 27 characters
`'0'`/`'1'` does not recover it. -/
theorem roundEnc_normalises (b k s : List CChar) :
    IsBlock (roundEnc b k s) ∧
      (∀ y : List CChar, substEnc (y.map (fun c => if c = 49 then 49 else 48)) = substEnc y) ∧
      ∀ k2 s2 : List CChar, k2.length = 27 ∧ IsBits k2 → ¬ IsBits b →
        roundDec (roundEnc b k s) k2 s2 ≠ b :=
  ⟨isBlock_roundEnc b k s, substEnc_map, fun _ s2 hk2 hb h =>
    hb (h ▸ (isBlock_roundDec (roundEnc b k s) hk2 s2).2)⟩

/-- Claim C19, amended, at the block `2000...0` encrypted with the BigKey `2000...0` and
decrypted with the all-zero BigKey. -/
theorem roundEnc_normalises_witness :
    ((List.replicate 27 (48 : CChar)).length = 27 ∧ IsBits (List.replicate 27 48)) ∧
      ¬ IsBits blockWithTwo ∧
      roundDec (roundEnc blockWithTwo bigKeyWithTwo (List.replicate 18 48))
        (List.replicate 27 48) (List.replicate 18 48) ≠ blockWithTwo :=
  ⟨by decide, by decide,
    (roundEnc_normalises blockWithTwo bigKeyWithTwo (List.replicate 18 48)).2.2
      (List.replicate 27 48) (List.replicate 18 48) (by decide) (by decide)⟩

/-- Claim C20. For a position `p` in 0..26, the forward step of `roundEnc` leaves the bit
of position `p` in place in every block if and only if `p` is 0, 13 or 26; and 24 of the
positions 0..25 have an image `(3 * i) % 26` other than themselves. -/
theorem fixedPerm_fixed_points (p : Nat) (hp : p < 27) :
    ((∀ X, IsBlock X → rd (fixedPermEnc X) p = rd X p) ↔ (p = 0 ∨ p = 13 ∨ p = 26)) ∧
      ((List.range 26).filter (fun i => decide ((3 * i) % 26 ≠ i))).length = 24 := by
  refine ⟨⟨fun h => ?_, fun h X _ => fixedPermEnc_fixed X p h⟩, by decide⟩
  by_contra hne
  exact fixedPermEnc_moved p hp hne (h (unitBlock p) (isBlock_unitBlock p))

/-- Claim C20 at position 13. -/
theorem fixedPerm_fixed_points_witness :
    13 < 27 ∧
      ((∀ X, IsBlock X → rd (fixedPermEnc X) 13 = rd X 13) ↔
        (13 = 0 ∨ 13 = 13 ∨ 13 = 26)) :=
  ⟨by decide, (fixedPerm_fixed_points 13 (by decide)).1⟩

end TUBCipher
